import Mathlib

/-!
# Temperature logger: streaming aggregator and retention log

A shallow embedding of `src/agregator.cpp` and `src/retention.cpp`.

* Time points (`timeutil::TP`) are integers counting clock ticks since the epoch.
* The arithmetic of `double` is kept abstract (`Arith`): the aggregator is
  verified for every choice of addition and division, so no algebraic law that
  fails for binary64 is used.  Concrete scenarios instantiate it with `ℚ`.
* Text is a list of characters; the file system is a map from paths to contents.
* The text conversions the log calls (`timeutil`, `<iomanip>`, `std::stod`) are
  parameters of the log (`TextFormat`); a concrete instance evaluates scenarios.

The definitions come first, then the lemmas and the theorems for the claims.
-/

namespace TempLogger

/-! ## Aggregator (`agregator.cpp`) -/

/-- The operations `Aggregator::push` performs on `double`: the constant `0.0`,
`m_sum += value`, and `m_sum / (double)m_cnt`. -/
structure Arith (α : Type) where
  zero : α
  add : α → α → α
  divCount : α → Nat → α

/-- Exact rational arithmetic, used to evaluate concrete scenarios. -/
def ratArith : Arith ℚ where
  zero := 0
  add := fun a b => a + b
  divCount := fun s n => s / (n : ℚ)

/-- The value `push` returns when a period is finished (`AvgOut`). -/
structure AvgOut (α : Type) where
  period_start : Int
  avg : α
deriving DecidableEq, Repr

/-- Modelled from the spec: the data members of `Aggregator` are declared in
`agregator.hpp`, which is not among the sources; the spec gives them as
`initialized: bool`, `periodStart: instant`, `sum: real number` and
`count: integer ≥ 0`.  The floor function `m_floor` is passed to `push`
explicitly. -/
structure Aggregator (α : Type) where
  m_inited : Bool
  m_start : Int
  m_sum : α
  m_cnt : Nat
deriving DecidableEq, Repr

/-- One reading handed to `push`: a time point and a value. -/
structure Reading (α : Type) where
  ts : Int
  value : α
deriving DecidableEq, Repr

namespace Aggregator

variable {α : Type}

/-- Modelled from the spec: a newly constructed aggregator is uninitialised
("first call ever (state uninitialized)"); the member initialisers are in
`agregator.hpp`.  `push` overwrites every other member on the first call. -/
def fresh (A : Arith α) : Aggregator α :=
  { m_inited := false, m_start := 0, m_sum := A.zero, m_cnt := 0 }

/-- The function `Aggregator::reset`. -/
def reset (A : Arith α) (_s : Aggregator α) (newStart : Int) : Aggregator α :=
  { m_inited := true, m_start := newStart, m_sum := A.zero, m_cnt := 0 }

/-- The function `Aggregator::push`: the new state and the optional finished average. -/
def push (A : Arith α) (m_floor : Int → Int) (s : Aggregator α) (ts : Int) (value : α) :
    Aggregator α × Option (AvgOut α) :=
  let start := m_floor ts
  let s1 := if !s.m_inited then reset A s start else s
  let finished : Option (AvgOut α) :=
    if start ≠ s1.m_start then
      (if s1.m_cnt > 0 then some ⟨s1.m_start, A.divCount s1.m_sum s1.m_cnt⟩ else none)
    else none
  let s2 := if start ≠ s1.m_start then reset A s1 start else s1
  ({ s2 with m_sum := A.add s2.m_sum value, m_cnt := s2.m_cnt + 1 }, finished)

/-- Pushing a sequence of readings one by one: the final state and the list of
values returned by the successive calls. -/
def pushAll (A : Arith α) (m_floor : Int → Int) :
    Aggregator α → List (Reading α) → Aggregator α × List (Option (AvgOut α))
  | s, [] => (s, [])
  | s, r :: rs =>
    let p := push A m_floor s r.ts r.value
    let q := pushAll A m_floor p.1 rs
    (q.1, p.2 :: q.2)

end Aggregator

/-- The start of the fixed period of length `P` (periods start at `off + k * P`)
that contains the instant `t`. -/
def periodFloor (P off : Int) (t : Int) : Int := t - (t - off) % P

/-- Modelled from the spec: `timeutil::floor_to_hour` is defined in `timeutil`,
which is not among the sources; "hourly buckets floor to the start of the clock
hour".  One tick is one second and local time is taken without zone offset. -/
def floor_to_hour (t : Int) : Int := periodFloor 3600 0 t

/-- The mean as the aggregator computes it: the values are added from left to
right starting from `0.0` and the total is divided by their number. -/
def mean {α : Type} (A : Arith α) (vs : List α) : α :=
  A.divCount (vs.foldl A.add A.zero) vs.length

/-- The longest run of readings at the end of `rs` that fall into the bucket of
the last reading. -/
def trailingRun {α : Type} (m_floor : Int → Int) (rs : List (Reading α)) : List (Reading α) :=
  match rs.getLast? with
  | none => []
  | some l => (rs.reverse.takeWhile (fun r => decide (m_floor r.ts = m_floor l.ts))).reverse

/-- The values of the readings of `rs` whose floored bucket is `b`, in order. -/
def bucketValues {α : Type} (m_floor : Int → Int) (b : Int) (rs : List (Reading α)) : List α :=
  (rs.filter (fun r => decide (m_floor r.ts = b))).map Reading.value

/-- The averages returned by a sequence of calls, in call order. -/
def emitted {α : Type} (outs : List (Option (AvgOut α))) : List (AvgOut α) :=
  outs.filterMap id

/-! ## Retention log (`retention.cpp`) -/

/-- An entry of the log (`LogRecord`): a time point and a value. -/
structure LogRecord (α : Type) where
  ts : Int
  value : α
deriving DecidableEq, Repr

/-- The text conversions `retention.cpp` calls but does not define:
`timeutil::format_iso_local`, `timeutil::parse_iso_local` (`none` when it returns
`false`), `operator<<` for `double` under `std::fixed << std::setprecision(3)`, and
`std::stod` (`none` when it throws). -/
structure TextFormat (α : Type) where
  format_iso_local : Int → List Char
  parse_iso_local : List Char → Option Int
  put_fixed3 : α → List Char
  stod : List Char → Option α

/-- The build and run-time conditions `rewrite_file` depends on: whether `_WIN32` is
defined, and whether `fs::rename` succeeds. -/
structure Platform where
  win32 : Bool
  renameOk : Bool
deriving DecidableEq, Repr

/-- The file system: the content of each path that exists. -/
abbrev FS := List Char → Option (List Char)

/-- Creating or overwriting the file at `p` with content `c`. -/
def FS.write (fs : FS) (p c : List Char) : FS := fun q => if q = p then some c else fs q

/-- Removing the file at `p` (`fs::remove`). -/
def FS.remove (fs : FS) (p : List Char) : FS := fun q => if q = p then none else fs q

/-- Moving the file at `src` onto `dst`, replacing it (`fs::rename` when it succeeds). -/
def FS.rename (fs : FS) (src dst : List Char) : FS :=
  match fs src with
  | none => fs
  | some c => (fs.remove src).write dst c

/-- Copying the file at `src` over `dst` (`fs::copy_file` with `overwrite_existing`). -/
def FS.copy_file (fs : FS) (src dst : List Char) : FS :=
  match fs src with
  | none => fs
  | some c => fs.write dst c

/-- The position of the first occurrence of `c` (`std::string::find`), `none` for `npos`. -/
def find (c : Char) : List Char → Option Nat
  | [] => none
  | x :: xs => if x = c then some 0 else (find c xs).map (· + 1)

/-- The lines produced by `while (std::getline(in, line))` on a stream with the given
content: lines end at a newline, and a last line without newline is returned when it is
not empty. -/
def getlines : List Char → List (List Char)
  | [] => []
  | c :: cs =>
    if c = '\n' then [] :: getlines cs
    else
      match getlines cs with
      | [] => [[c]]
      | l :: ls => (c :: l) :: ls

/-- The function `parse_line`. -/
def parse_line {α : Type} (F : TextFormat α) (line : List Char) : Option (LogRecord α) :=
  match find ' ' line with
  | none => none
  | some sp =>
    let tsStr := line.take sp
    let valStr := line.drop (sp + 1)
    match F.parse_iso_local tsStr with
    | none => none
    | some tp =>
      match F.stod valStr with
      | none => none
      | some v => some { ts := tp, value := v }

/-- The text `append` and `rewrite_file` write for one record, without the final newline. -/
def format_record {α : Type} (F : TextFormat α) (r : LogRecord α) : List Char :=
  F.format_iso_local r.ts ++ [' '] ++ F.put_fixed3 r.value

/-- The text written for one record: its line and the newline. -/
def format_line {α : Type} (F : TextFormat α) (r : LogRecord α) : List Char :=
  format_record F r ++ ['\n']

/-- The content `rewrite_file` writes for a sequence of records. -/
def serialize {α : Type} (F : TextFormat α) (data : List (LogRecord α)) : List Char :=
  (data.map (format_line F)).flatten

/-- Modelled from the spec: the data members of `RetentionLog` are declared in
`retention.hpp`, which is not among the sources; the spec gives them as `records`,
`cutoffFn` and `backingPath`, and the constructor in `retention.cpp` initialises
`m_path` and `m_cutoff`. -/
structure RetentionLog (α : Type) where
  m_path : List Char
  m_cutoff : Int → Int
  m_data : List (LogRecord α)

namespace RetentionLog

variable {α : Type}

/-- The loop `while (!m_data.empty() && m_data.front().ts < cut) m_data.pop_front()`. -/
def drop_old (cut : Int) (data : List (LogRecord α)) : List (LogRecord α) :=
  data.dropWhile (fun r => decide (r.ts < cut))

/-- The path of the temporary file: `tmp = p; tmp += ".tmp"`. -/
def tmp_path (log : RetentionLog α) : List Char := log.m_path ++ ".tmp".toList

/-- The points `rewrite_file` passes through. -/
inductive Stage where
  | entered
  | tmpOpened
  | tmpWritten
  | targetRemoved
  | renamed
  | renameFailed
  | copied
  | tmpRemoved
deriving DecidableEq, Repr

/-- The file system after the temporary file has been written and closed. -/
def fs_tmp_written (F : TextFormat α) (log : RetentionLog α) (fs : FS) : FS :=
  fs.write log.tmp_path (serialize F log.m_data)

/-- The file system after the `#ifdef _WIN32` block (`fs::remove(p, ec)`). -/
def fs_before_rename (plat : Platform) (F : TextFormat α) (log : RetentionLog α) (fs : FS) :
    FS :=
  if plat.win32 then (fs_tmp_written F log fs).remove log.m_path else fs_tmp_written F log fs

/-- The function `RetentionLog::rewrite_file`, with the writes to the temporary file
succeeding: the file system it leaves. -/
def rewrite_file (plat : Platform) (F : TextFormat α) (log : RetentionLog α) (fs : FS) : FS :=
  let fs2 := fs_before_rename plat F log fs
  if plat.renameOk then
    -- `fs::rename(tmp, p, ec)` succeeded
    fs2.rename log.tmp_path log.m_path
  else
    -- `ec` is set: `fs::copy_file(tmp, p, overwrite_existing, ec); fs::remove(tmp, ec)`
    (fs2.copy_file log.tmp_path log.m_path).remove log.tmp_path

/-- The successive file-system states of `rewrite_file`, each with the point reached. -/
def rewrite_file_trace (plat : Platform) (F : TextFormat α) (log : RetentionLog α) (fs : FS) :
    List (Stage × FS) :=
  let fs1 := fs_tmp_written F log fs
  let fs2 := fs_before_rename plat F log fs
  [(Stage.entered, fs), (Stage.tmpOpened, fs.write log.tmp_path []), (Stage.tmpWritten, fs1)] ++
  (if plat.win32 then [(Stage.targetRemoved, fs2)] else []) ++
  (if plat.renameOk then
    [(Stage.renamed, fs2.rename log.tmp_path log.m_path)]
  else
    [(Stage.renameFailed, fs2),
     (Stage.copied, fs2.copy_file log.tmp_path log.m_path),
     (Stage.tmpRemoved, (fs2.copy_file log.tmp_path log.m_path).remove log.tmp_path)])

/-- The points after the temporary file has been written and before the rename onto the
backing path has completed. -/
def Stage.awaitingRename : Stage → Bool
  | Stage.tmpWritten => true
  | Stage.targetRemoved => true
  | _ => false

/-- The records read by the loop of `load_and_compact`: every line of the backing file
that `parse_line` accepts, in file order; none when the file cannot be opened. -/
def read_records (F : TextFormat α) (log : RetentionLog α) (fs : FS) : List (LogRecord α) :=
  match fs log.m_path with
  | none => []
  | some content => (getlines content).filterMap (parse_line F)

/-- The function `RetentionLog::load_and_compact`. -/
def load_and_compact (plat : Platform) (F : TextFormat α) (log : RetentionLog α) (fs : FS)
    (now : Int) : RetentionLog α × FS :=
  let data := read_records F log fs
  let cut := log.m_cutoff now
  let log2 := { log with m_data := drop_old cut data }
  (log2, rewrite_file plat F log2 fs)

/-- The function `RetentionLog::append`, with the write succeeding. -/
def append (F : TextFormat α) (log : RetentionLog α) (fs : FS) (r : LogRecord α) :
    RetentionLog α × FS :=
  ({ log with m_data := log.m_data ++ [r] },
    fs.write log.m_path ((fs log.m_path).getD [] ++ format_line F r))

/-- The function `RetentionLog::compact_to_disk`. -/
def compact_to_disk (plat : Platform) (F : TextFormat α) (log : RetentionLog α) (fs : FS)
    (now : Int) : RetentionLog α × FS :=
  let cut := log.m_cutoff now
  let log2 := { log with m_data := drop_old cut log.m_data }
  (log2, rewrite_file plat F log2 fs)

end RetentionLog

/-! ## A concrete text format

The conversions are library code (`<iomanip>`, `std::stod`) or live in `timeutil`.  The
instance below fixes them: a `double` is the rational number it denotes, `std::stod`
rounds the decimal it reads to the nearest binary64 value, one tick is one second, and
local time has no zone offset. -/

/-- The decimal digits of `n`, most significant first, at least `width` of them. -/
def digitsPadded (width n : Nat) : List Char :=
  let ds := Nat.toDigits 10 n
  List.replicate (width - ds.length) '0' ++ ds

/-- The value of a string of decimal digits. -/
def natOfDigits (ds : List Char) : Nat :=
  ds.foldl (fun acc c => 10 * acc + (c.toNat - '0'.toNat)) 0

/-- The number of days from 1970-01-01 to the given date of the proleptic Gregorian
calendar. -/
def days_from_civil (y m d : Int) : Int :=
  let y1 := if m ≤ 2 then y - 1 else y
  let era := y1 / 400
  let yoe := y1 - era * 400
  let mp := if m > 2 then m - 3 else m + 9
  let doy := (153 * mp + 2) / 5 + d - 1
  let doe := yoe * 365 + yoe / 4 - yoe / 100 + doy
  era * 146097 + doe - 719468

/-- The date (year, month, day) that lies the given number of days after 1970-01-01. -/
def civil_from_days (z0 : Int) : Int × Int × Int :=
  let z := z0 + 719468
  let era := z / 146097
  let doe := z - era * 146097
  let yoe := (doe - doe / 1460 + doe / 36524 - doe / 146096) / 365
  let doy := doe - (365 * yoe + yoe / 4 - yoe / 100)
  let mp := (5 * doy + 2) / 153
  let d := doy - (153 * mp + 2) / 5 + 1
  let m := if mp < 10 then mp + 3 else mp - 9
  let y := yoe + era * 400
  (if m ≤ 2 then y + 1 else y, m, d)

/-- Modelled from the spec: `timeutil::format_iso_local` is defined in `timeutil`, which is
not among the sources; the record line starts with an "ISO-8601 local timestamp" with "no
timezone suffix", which `parse_line` documents as `YYYY-MM-DDTHH:MM:SS`. -/
def format_iso_local (t : Int) : List Char :=
  let days := t / 86400
  let secs := t % 86400
  let (y, m, d) := civil_from_days days
  digitsPadded 4 y.toNat ++ ['-'] ++ digitsPadded 2 m.toNat ++ ['-'] ++
    digitsPadded 2 d.toNat ++ ['T'] ++ digitsPadded 2 (secs / 3600).toNat ++ [':'] ++
    digitsPadded 2 (secs % 3600 / 60).toNat ++ [':'] ++ digitsPadded 2 (secs % 60).toNat

/-- Modelled from the spec: `timeutil::parse_iso_local` is defined in `timeutil`, which is
not among the sources; it reads a timestamp of the form `YYYY-MM-DDTHH:MM:SS` and fails on
other text. -/
def parse_iso_local (s : List Char) : Option Int :=
  match s with
  | [y1, y2, y3, y4, '-', m1, m2, '-', d1, d2, 'T', h1, h2, ':', n1, n2, ':', s1, s2] =>
    if [y1, y2, y3, y4, m1, m2, d1, d2, h1, h2, n1, n2, s1, s2].all Char.isDigit then
      let y := natOfDigits [y1, y2, y3, y4]
      let m := natOfDigits [m1, m2]
      let d := natOfDigits [d1, d2]
      let h := natOfDigits [h1, h2]
      let n := natOfDigits [n1, n2]
      let sec := natOfDigits [s1, s2]
      if 1 ≤ m ∧ m ≤ 12 ∧ 1 ≤ d ∧ d ≤ 31 ∧ h ≤ 23 ∧ n ≤ 59 ∧ sec ≤ 60 then
        some (days_from_civil y m d * 86400 + h * 3600 + n * 60 + sec)
      else none
    else none
  | _ => none

/-- The quotient `a / b` rounded to the nearest natural number, ties to even. -/
def roundHalfEvenDiv (a b : Nat) : Nat :=
  let quo := a / b
  let rem := a % b
  if 2 * rem < b then quo
  else if b < 2 * rem then quo + 1
  else if quo % 2 = 0 then quo else quo + 1

/-- The number of thousandths that are printed for `q`: `|q| * 1000` rounded to the nearest
integer, ties to even. -/
def fixed3_thousandths (q : ℚ) : Nat := roundHalfEvenDiv (q.num.natAbs * 1000) q.den

/-- The value `q` rounded to three fractional digits: the decimal number the text of
`put_fixed3` denotes. -/
def round3 (q : ℚ) : ℚ :=
  if q < 0 then -((fixed3_thousandths q : ℚ) / 1000) else (fixed3_thousandths q : ℚ) / 1000

/-- The output of `operator<<` under `std::fixed << std::setprecision(3)` for a finite
value: the value rounded to three fractional digits (ties to even), printed as sign,
integer part, point and exactly three digits. -/
def put_fixed3 (q : ℚ) : List Char :=
  (if q < 0 then ['-'] else []) ++ Nat.toDigits 10 (fixed3_thousandths q / 1000) ++ ['.'] ++
    digitsPadded 3 (fixed3_thousandths q % 1000)

/-- The position of the leading binary digit of `n`, found in at most `fuel` halvings. -/
def log2Floor : Nat → Nat → Nat
  | 0, _ => 0
  | fuel + 1, n => if n < 2 then 0 else log2Floor fuel (n / 2) + 1

/-- The exponent `e` of a nonzero value: `2 ^ e ≤ |q| < 2 ^ (e + 1)`. -/
def binaryExponent (q : ℚ) : Int :=
  let e0 : Int := (log2Floor q.num.natAbs q.num.natAbs : Int) - (log2Floor q.den q.den : Int)
  if (2 : ℚ) ^ e0 ≤ |q| then e0 else e0 - 1

/-- The binary64 value nearest to `q` (ties to even), for `q` zero or of a magnitude in the
normal range: `q` is rounded to 53 significant bits. -/
def toBinary64 (q : ℚ) : ℚ :=
  if q = 0 then 0
  else
    let u : ℚ := (2 : ℚ) ^ (binaryExponent q - 52)
    let n := roundHalfEvenDiv (|q| / u).num.natAbs (|q| / u).den
    if q < 0 then -((n : ℚ) * u) else (n : ℚ) * u

/-- The characters `std::isspace` accepts in the "C" locale. -/
def isspace (c : Char) : Bool :=
  c = ' ' || c = '\t' || c = '\n' || c = '\x0b' || c = '\x0c' || c = '\r'

/-- The exponent part of a decimal floating literal at the start of `s`, when there is
one: `e` or `E`, an optional sign, and at least one digit. -/
def stod_exponent (s : List Char) : Int :=
  match s with
  | [] => 0
  | c :: t =>
    if c = 'e' || c = 'E' then
      match t with
      | '-' :: u => - (natOfDigits (u.takeWhile Char.isDigit) : Int)
      | '+' :: u => (natOfDigits (u.takeWhile Char.isDigit) : Int)
      | u => (natOfDigits (u.takeWhile Char.isDigit) : Int)
    else 0

/-- The largest finite binary64 value. -/
def DBL_MAX : ℚ := 2 ^ 1024 - 2 ^ 971

/-- The least magnitude that rounds beyond the largest finite binary64 value: halfway
between `DBL_MAX` and `2 ^ 1024`. -/
def DBL_OVERFLOW : ℚ := 2 ^ 1024 - 2 ^ 970

/-- The smallest positive normal binary64 value. -/
def DBL_MIN : ℚ := 1 / 2 ^ 1022

/-- The exact value of the text `std::stod` converts: leading white space is skipped, then
the longest prefix of the form sign, digits, point, digits, exponent is taken and the rest
of the string is ignored; `none` when there are no digits.  Hexadecimal literals, `inf`
and `nan` are outside this instance. -/
def stod_decimal (s : List Char) : Option ℚ :=
  let s1 := s.dropWhile isspace
  let neg := s1.head? = some '-'
  let s2 := if s1.head? = some '-' ∨ s1.head? = some '+' then s1.tail else s1
  let ip := s2.takeWhile Char.isDigit
  let s3 := s2.dropWhile Char.isDigit
  let fp := if s3.head? = some '.' then s3.tail.takeWhile Char.isDigit else []
  let s4 := if s3.head? = some '.' then s3.tail.dropWhile Char.isDigit else s3
  if ip = [] ∧ fp = [] then none
  else
    let mant : ℚ := (natOfDigits (ip ++ fp) : ℚ) / (10 : ℚ) ^ fp.length
    let v : ℚ := mant * (10 : ℚ) ^ stod_exponent s4
    some (if neg then -v else v)

/-- The function `std::stod` on decimal input: the binary64 value nearest to the exact
value of the converted text; `none` stands for the exceptions `std::invalid_argument` (no
digits) and `std::out_of_range` (the conversion reports a range error: overflow, or a
nonzero value below the normal range). -/
def stod (s : List Char) : Option ℚ :=
  match stod_decimal s with
  | none => none
  | some v =>
    if DBL_OVERFLOW ≤ |v| ∨ (0 < |v| ∧ |v| < DBL_MIN) then none else some (toBinary64 v)

/-- The concrete text format. -/
def ratFormat : TextFormat ℚ where
  format_iso_local := format_iso_local
  parse_iso_local := parse_iso_local
  put_fixed3 := put_fixed3
  stod := stod

/-- The first instant the timestamp text can express: 0000-01-01T00:00:00. -/
def TS_MIN : Int := -62167219200

/-- The last instant the timestamp text can express: 9999-12-31T23:59:59. -/
def TS_MAX : Int := 253402300799

/-- The retention window of the raw log in `temp_logger_main.cpp`: `n - hours(24)`. -/
def rawCutoff (n : Int) : Int := n - 24 * 3600

/-- The format the spec requires of an accepted line, in its words: "exactly two fields
separated by a single space" - one space in the line, with text on both sides of it. -/
def twoFields (line : List Char) : Bool :=
  line.count ' ' = 1 && line.head? ≠ some ' ' && line.getLast? ≠ some ' '

/-- A file system without files. -/
def emptyFS : FS := fun _ => none

/-- The raw log of `temp_logger_main.cpp` before any record is read or appended. -/
def rawLog : RetentionLog ℚ :=
  { m_path := "measurements.log".toList, m_cutoff := rawCutoff, m_data := [] }

/-- The build used in the scenarios: no `_WIN32`, `fs::rename` succeeds. -/
def posix : Platform := { win32 := false, renameOk := true }

/-- The instant "now" of the scenarios: 2024-01-03T00:00:00. -/
def scenarioNow : Int := 1704240000

/-- The raw log after appending a record stamped `now - 25h` and one stamped `now - 1h`,
with the file system that results. -/
def rawLogTwo : RetentionLog ℚ × FS :=
  RetentionLog.append ratFormat
    (RetentionLog.append ratFormat rawLog emptyFS ⟨scenarioNow - 25 * 3600, 41 / 2⟩).1
    (RetentionLog.append ratFormat rawLog emptyFS ⟨scenarioNow - 25 * 3600, 41 / 2⟩).2
    ⟨scenarioNow - 3600, 85 / 4⟩

/-- The raw log after appending a record stamped `now` and then one stamped 48 hours
earlier, with the file system that results. -/
def rawLogUnsorted : RetentionLog ℚ × FS :=
  RetentionLog.append ratFormat
    (RetentionLog.append ratFormat rawLog emptyFS ⟨scenarioNow, 1⟩).1
    (RetentionLog.append ratFormat rawLog emptyFS ⟨scenarioNow, 1⟩).2
    ⟨scenarioNow - 48 * 3600, 2⟩

/-- A Windows build (`_WIN32` defined) on which `fs::rename` succeeds. -/
def windows : Platform := { win32 := true, renameOk := true }

/-- A file system whose only file is the raw log, holding one record line. -/
def oneLineFS : FS := emptyFS.write rawLog.m_path "2024-01-01T00:00:00 1.000\n".toList

/-- The record stamped 2024-01-01T00:00:00 whose value is the `double` 23.4567. -/
def sampleRecord : LogRecord ℚ := ⟨1704067200, toBinary64 (234567 / 10000)⟩

/-- Three readings whose hourly buckets are 10:00, 11:00, 10:00 (timestamps out of order). -/
def zigzagReadings : List (Reading ℚ) := [⟨36000, 1⟩, ⟨39900, 2⟩, ⟨37800, 3⟩]

/-! ## Aggregator: lemmas -/

section AggregatorLemmas

variable {α : Type}

open Aggregator

theorem push_uninit (A : Arith α) (fl : Int → Int) (s : Aggregator α) (ts : Int) (v : α)
    (h : s.m_inited = false) :
    push A fl s ts v =
      ({ m_inited := true, m_start := fl ts, m_sum := A.add A.zero v, m_cnt := 1 }, none) := by
  simp [push, reset, h]

theorem push_same (A : Arith α) (fl : Int → Int) (s : Aggregator α) (ts : Int) (v : α)
    (h : s.m_inited = true) (hb : fl ts = s.m_start) :
    push A fl s ts v =
      ({ s with m_sum := A.add s.m_sum v, m_cnt := s.m_cnt + 1 }, none) := by
  simp [push, h, hb]

theorem push_cross (A : Arith α) (fl : Int → Int) (s : Aggregator α) (ts : Int) (v : α)
    (h : s.m_inited = true) (hb : fl ts ≠ s.m_start) :
    push A fl s ts v =
      ({ m_inited := true, m_start := fl ts, m_sum := A.add A.zero v, m_cnt := 1 },
        if s.m_cnt > 0 then some ⟨s.m_start, A.divCount s.m_sum s.m_cnt⟩ else none) := by
  simp [push, reset, h, hb]

theorem pushAll_append (A : Arith α) (fl : Int → Int) (rs₁ rs₂ : List (Reading α)) :
    ∀ s : Aggregator α,
      pushAll A fl s (rs₁ ++ rs₂) =
        ((pushAll A fl (pushAll A fl s rs₁).1 rs₂).1,
          (pushAll A fl s rs₁).2 ++ (pushAll A fl (pushAll A fl s rs₁).1 rs₂).2) := by
  induction rs₁ with
  | nil => intro s; simp [pushAll]
  | cons r rs ih => intro s; simp [pushAll, ih]

/-- What the state records about the readings `cur` accumulated in the open bucket. -/
theorem push_tracks (A : Arith α) (fl : Int → Int) (s : Aggregator α) (cur : List (Reading α))
    (r : Reading α)
    (hi : s.m_inited = true)
    (hsum : s.m_sum = (cur.map Reading.value).foldl A.add A.zero)
    (hcnt : s.m_cnt = cur.length) :
    let s2 := (push A fl s r.ts r.value).1
    let cur2 := if fl r.ts = s.m_start then cur ++ [r] else [r]
    s2.m_inited = true ∧ s2.m_start = fl r.ts ∧
      s2.m_sum = (cur2.map Reading.value).foldl A.add A.zero ∧ s2.m_cnt = cur2.length := by
  by_cases hb : fl r.ts = s.m_start
  · simp [push_same A fl s r.ts r.value hi hb, hb, hi, hsum, hcnt, List.foldl_append]
  · simp [push_cross A fl s r.ts r.value hi hb, hb]

theorem trailingRun_snoc (fl : Int → Int) (rs : List (Reading α)) (r : Reading α) :
    trailingRun fl (rs ++ [r]) =
      (rs.reverse.takeWhile (fun x => decide (fl x.ts = fl r.ts))).reverse ++ [r] := by
  simp [trailingRun, List.takeWhile]

theorem trailingRun_snoc_same (fl : Int → Int) (rs : List (Reading α)) (l r : Reading α)
    (h : fl r.ts = fl l.ts) :
    trailingRun fl (rs ++ [l] ++ [r]) = trailingRun fl (rs ++ [l]) ++ [r] := by
  rw [trailingRun_snoc, trailingRun_snoc, h]
  simp [List.takeWhile]

theorem trailingRun_snoc_diff (fl : Int → Int) (rs : List (Reading α)) (l r : Reading α)
    (h : fl r.ts ≠ fl l.ts) :
    trailingRun fl (rs ++ [l] ++ [r]) = [r] := by
  rw [trailingRun_snoc]
  have : fl l.ts ≠ fl r.ts := fun e => h e.symm
  simp [List.takeWhile, this]

/-- The trailing run is a suffix of the sequence, and the reading just before it, when
there is one, lies in another bucket than the last reading. -/
theorem trailingRun_maximal (fl : Int → Int) (rs : List (Reading α)) (l : Reading α) :
    ∃ pre, rs ++ [l] = pre ++ trailingRun fl (rs ++ [l]) ∧
      ∀ p, pre.getLast? = some p → fl p.ts ≠ fl l.ts := by
  refine ⟨(rs.reverse.dropWhile (fun x => decide (fl x.ts = fl l.ts))).reverse, ?_, ?_⟩
  · rw [trailingRun_snoc, ← List.append_assoc, ← List.reverse_append,
      List.takeWhile_append_dropWhile, List.reverse_reverse]
  · intro p hp
    rw [List.getLast?_reverse] at hp
    have := List.head?_dropWhile_not (fun x => decide (fl x.ts = fl l.ts)) rs.reverse
    rw [hp] at this
    simpa using this

/-- For exact rational arithmetic, `mean` is the sum divided by the number of values. -/
theorem mean_ratArith (vs : List ℚ) : mean ratArith vs = vs.sum / (vs.length : ℚ) := by
  have h : ∀ (xs : List ℚ) (a : ℚ), xs.foldl (fun a b => a + b) a = a + xs.sum := by
    intro xs
    induction xs with
    | nil => intro a; simp
    | cons x xs ih => intro a; simp [ih, add_assoc]
  show (vs.foldl (fun a b => a + b) 0) / (vs.length : ℚ) = _
  rw [h, zero_add]

/-- The state reached from an uninitialised aggregator after a non-empty sequence. -/
theorem pushAll_state (A : Arith α) (fl : Int → Int) (s0 : Aggregator α)
    (h0 : s0.m_inited = false) (rs : List (Reading α)) (l : Reading α) :
    let s := (pushAll A fl s0 (rs ++ [l])).1
    s.m_inited = true ∧ s.m_start = fl l.ts ∧
      s.m_sum = ((trailingRun fl (rs ++ [l])).map Reading.value).foldl A.add A.zero ∧
      s.m_cnt = (trailingRun fl (rs ++ [l])).length := by
  induction rs using List.reverseRecOn generalizing l with
  | nil =>
    simp [pushAll, push_uninit A fl s0 l.ts l.value h0, trailingRun]
  | append_singleton rs p ih =>
    obtain ⟨hi, hst, hsum, hcnt⟩ := ih p
    have hstep := push_tracks A fl (pushAll A fl s0 (rs ++ [p])).1
      (trailingRun fl (rs ++ [p])) l hi hsum hcnt
    simp only [pushAll_append A fl (rs ++ [p]) [l]]
    simp only [pushAll]
    by_cases hb : fl l.ts = fl p.ts
    · rw [trailingRun_snoc_same fl rs p l hb]
      simpa [hst, hb] using hstep
    · rw [trailingRun_snoc_diff fl rs p l hb]
      simpa [hst, hb] using hstep

theorem emitted_cons (o : Option (AvgOut α)) (outs : List (Option (AvgOut α))) :
    emitted (o :: outs) = (match o with | some a => [a] | none => []) ++ emitted outs := by
  cases o <;> simp [emitted]

theorem bucketValues_of_all_eq (fl : Int → Int) (b : Int) (cur : List (Reading α))
    (h : ∀ r ∈ cur, fl r.ts = b) : bucketValues fl b cur = cur.map Reading.value := by
  unfold bucketValues
  congr 1
  exact List.filter_eq_self.2 (fun r hr => by simpa using h r hr)

theorem bucketValues_of_all_ne (fl : Int → Int) (b : Int) (rs : List (Reading α))
    (h : ∀ r ∈ rs, fl r.ts ≠ b) : bucketValues fl b rs = [] := by
  unfold bucketValues
  rw [List.map_eq_nil_iff]
  exact List.filter_eq_nil_iff.2 (fun r hr => by simpa using h r hr)

theorem bucketValues_append (fl : Int → Int) (b : Int) (xs ys : List (Reading α)) :
    bucketValues fl b (xs ++ ys) = bucketValues fl b xs ++ bucketValues fl b ys := by
  simp [bucketValues]

/-- With non-decreasing buckets, every average returned from an initialised state is
the mean of the whole bucket, and the returned period starts strictly increase. -/
theorem pushAll_sorted (A : Arith α) (fl : Int → Int) (rs : List (Reading α)) :
    ∀ (s : Aggregator α) (cur : List (Reading α)),
      s.m_inited = true →
      s.m_sum = (cur.map Reading.value).foldl A.add A.zero →
      s.m_cnt = cur.length →
      (∀ r ∈ cur, fl r.ts = s.m_start) →
      (∀ r ∈ rs, s.m_start ≤ fl r.ts) →
      rs.Pairwise (fun a b => fl a.ts ≤ fl b.ts) →
      (∀ a ∈ emitted (pushAll A fl s rs).2,
          s.m_start ≤ a.period_start ∧
          a.avg = mean A (bucketValues fl a.period_start (cur ++ rs))) ∧
        ((emitted (pushAll A fl s rs).2).map AvgOut.period_start).Pairwise (· < ·) := by
  induction rs with
  | nil => intro s cur _ _ _ _ _ _; simp [pushAll, emitted]
  | cons r rest ih =>
    intro s cur hi hsum hcnt hcur hge hsorted
    have hr : s.m_start ≤ fl r.ts := hge r (List.mem_cons_self _ _)
    rw [List.pairwise_cons] at hsorted
    obtain ⟨hrle, hrest⟩ := hsorted
    have htrack := push_tracks A fl s cur r hi hsum hcnt
    simp only at htrack
    obtain ⟨hi2, hst2, hsum2, hcnt2⟩ := htrack
    by_cases hb : fl r.ts = s.m_start
    · -- same bucket: nothing is returned, the reading joins the open bucket
      simp only [hb, if_true] at hsum2 hcnt2
      have hcur2 : ∀ x ∈ cur ++ [r], fl x.ts = (push A fl s r.ts r.value).1.m_start := by
        intro x hx
        rw [hst2]
        rcases List.mem_append.1 hx with hx | hx
        · rw [hcur x hx, hb]
        · rw [List.mem_singleton.1 hx]
      have hge2 : ∀ x ∈ rest, (push A fl s r.ts r.value).1.m_start ≤ fl x.ts := by
        intro x hx; rw [hst2]; exact hrle x hx
      obtain ⟨ih1, ih2⟩ := ih _ (cur ++ [r]) hi2 hsum2 hcnt2 hcur2 hge2 hrest
      have hout : (push A fl s r.ts r.value).2 = none := by
        rw [push_same A fl s r.ts r.value hi hb]
      simp only [pushAll, emitted_cons, hout, List.nil_append]
      refine ⟨?_, ih2⟩
      intro a ha
      obtain ⟨h1, h2⟩ := ih1 a ha
      rw [hst2, hb] at h1
      refine ⟨h1, ?_⟩
      rw [h2]; simp
    · -- a later bucket: the finished bucket is returned and a new one is opened
      have hlt : s.m_start < fl r.ts := lt_of_le_of_ne hr (fun e => hb e.symm)
      simp only [hb, if_false] at hsum2 hcnt2
      have hcur2 : ∀ x ∈ [r], fl x.ts = (push A fl s r.ts r.value).1.m_start := by
        intro x hx; rw [hst2, List.mem_singleton.1 hx]
      have hge2 : ∀ x ∈ rest, (push A fl s r.ts r.value).1.m_start ≤ fl x.ts := by
        intro x hx; rw [hst2]; exact hrle x hx
      obtain ⟨ih1, ih2⟩ := ih _ [r] hi2 hsum2 hcnt2 hcur2 hge2 hrest
      have hout : (push A fl s r.ts r.value).2 =
          if s.m_cnt > 0 then some ⟨s.m_start, A.divCount s.m_sum s.m_cnt⟩ else none := by
        rw [push_cross A fl s r.ts r.value hi hb]
      have htail : ∀ a ∈ emitted (pushAll A fl (push A fl s r.ts r.value).1 rest).2,
          s.m_start < a.period_start ∧
            a.avg = mean A (bucketValues fl a.period_start (cur ++ r :: rest)) := by
        intro a ha
        obtain ⟨h1, h2⟩ := ih1 a ha
        rw [hst2] at h1
        have hlt2 : s.m_start < a.period_start := lt_of_lt_of_le hlt h1
        refine ⟨hlt2, ?_⟩
        rw [h2, bucketValues_append fl _ cur,
          bucketValues_of_all_ne fl _ cur (fun x hx => by rw [hcur x hx]; exact ne_of_lt hlt2)]
        simp
      have hhead : A.divCount s.m_sum s.m_cnt =
          mean A (bucketValues fl s.m_start (cur ++ r :: rest)) := by
        rw [bucketValues_append, bucketValues_of_all_eq fl _ cur hcur,
          bucketValues_of_all_ne fl _ (r :: rest)]
        · simp [mean, hsum, hcnt]
        · intro x hx
          rcases List.mem_cons.1 hx with hx | hx
          · rw [hx]; exact hb
          · exact ne_of_gt (lt_of_lt_of_le hlt (hrle x hx))
      simp only [pushAll, emitted_cons, hout]
      by_cases hc : s.m_cnt > 0
      · simp only [hc, if_true, List.singleton_append, List.mem_cons, List.map_cons,
          List.pairwise_cons]
        refine ⟨?_, ?_, ih2⟩
        · rintro a (rfl | ha)
          · exact ⟨le_refl _, hhead⟩
          · exact ⟨le_of_lt (htail a ha).1, (htail a ha).2⟩
        · intro b hb2
          obtain ⟨a, ha, rfl⟩ := List.mem_map.1 hb2
          exact (htail a ha).1
      · simp only [hc, if_false, List.nil_append]
        exact ⟨fun a ha => ⟨le_of_lt (htail a ha).1, (htail a ha).2⟩, ih2⟩

/-- With non-decreasing buckets, the number of returned averages is bounded by the
number of distinct buckets after the open one. -/
theorem pushAll_sorted_count (A : Arith α) (fl : Int → Int) (rs : List (Reading α)) :
    ∀ (s : Aggregator α),
      s.m_inited = true →
      (∀ r ∈ rs, s.m_start ≤ fl r.ts) →
      rs.Pairwise (fun a b => fl a.ts ≤ fl b.ts) →
      (emitted (pushAll A fl s rs).2).length + 1 ≤
        ((s.m_start :: rs.map (fun r => fl r.ts)).toFinset).card := by
  induction rs with
  | nil => intro s _ _ _; simp [pushAll, emitted]
  | cons r rest ih =>
    intro s hi hge hsorted
    have hr : s.m_start ≤ fl r.ts := hge r (List.mem_cons_self _ _)
    rw [List.pairwise_cons] at hsorted
    obtain ⟨hrle, hrest⟩ := hsorted
    by_cases hb : fl r.ts = s.m_start
    · have hp := push_same A fl s r.ts r.value hi hb
      have := ih (push A fl s r.ts r.value).1 (by rw [hp]; exact hi) (by
        intro x hx; rw [hp]; exact hge x (List.mem_cons_of_mem _ hx)) hrest
      simp only [pushAll, emitted_cons]
      rw [hp] at this ⊢
      simpa [hb] using this
    · have hlt : s.m_start < fl r.ts := lt_of_le_of_ne hr (fun e => hb e.symm)
      have hp := push_cross A fl s r.ts r.value hi hb
      have := ih (push A fl s r.ts r.value).1 (by rw [hp]) (by
        intro x hx; rw [hp]; exact hrle x hx) hrest
      have hnot : s.m_start ∉ (fl r.ts :: rest.map (fun r => fl r.ts)).toFinset := by
        simp only [List.toFinset_cons, Finset.mem_insert, List.mem_toFinset, List.mem_map,
          not_or, not_exists, not_and]
        refine ⟨ne_of_lt hlt, fun x hx e => ?_⟩
        have := hrle x hx
        omega
      simp only [pushAll, emitted_cons]
      rw [hp] at this ⊢
      simp only [List.map_cons]
      rw [List.toFinset_cons, Finset.card_insert_of_not_mem hnot]
      simp only at this ⊢
      split <;> simp at * <;> omega

theorem periodFloor_eq (P off t : Int) : periodFloor P off t = off + P * ((t - off) / P) := by
  unfold periodFloor
  have := Int.emod_add_ediv (t - off) P
  omega

theorem periodFloor_mono (P off : Int) (hP : 0 < P) {s t : Int} (h : s ≤ t) :
    periodFloor P off s ≤ periodFloor P off t := by
  rw [periodFloor_eq, periodFloor_eq]
  have h1 : (s - off) / P ≤ (t - off) / P := Int.ediv_le_ediv hP (by omega)
  have h2 : P * ((s - off) / P) ≤ P * ((t - off) / P) :=
    Int.mul_le_mul_of_nonneg_left h1 (le_of_lt hP)
  omega

/-- Sorted timestamps give sorted buckets under a monotone floor. -/
theorem buckets_sorted (fl : Int → Int) (hfl : ∀ s t, s ≤ t → fl s ≤ fl t)
    (rs : List (Reading α)) (hts : rs.Pairwise (fun a b => a.ts ≤ b.ts)) :
    rs.Pairwise (fun a b => fl a.ts ≤ fl b.ts) :=
  hts.imp (fun h => hfl _ _ h)

/-- Bucketing for a monotone floor, from an uninitialised aggregator. -/
theorem pushAll_fresh_sorted (A : Arith α) (fl : Int → Int) (s0 : Aggregator α)
    (h0 : s0.m_inited = false) (rs : List (Reading α))
    (hb : rs.Pairwise (fun a b => fl a.ts ≤ fl b.ts)) :
    (∀ a ∈ emitted (pushAll A fl s0 rs).2,
        a.avg = mean A (bucketValues fl a.period_start rs)) ∧
      ((emitted (pushAll A fl s0 rs).2).map AvgOut.period_start).Pairwise (· < ·) := by
  cases rs with
  | nil => simp [pushAll, emitted]
  | cons r rest =>
    rw [List.pairwise_cons] at hb
    have hp := push_uninit A fl s0 r.ts r.value h0
    have := pushAll_sorted A fl rest (push A fl s0 r.ts r.value).1 [r]
      (by rw [hp]) (by rw [hp]; rfl) (by rw [hp]; rfl)
      (by intro x hx; rw [hp, List.mem_singleton.1 hx])
      (by intro x hx; rw [hp]; exact hb.1 x hx) hb.2
    simp only [pushAll, emitted_cons]
    rw [hp] at this ⊢
    simp only [List.nil_append]
    exact ⟨fun a ha => (this.1 a ha).2, this.2⟩

theorem pushAll_fresh_count (A : Arith α) (fl : Int → Int) (s0 : Aggregator α)
    (h0 : s0.m_inited = false) (rs : List (Reading α)) (hne : rs ≠ [])
    (hb : rs.Pairwise (fun a b => fl a.ts ≤ fl b.ts)) :
    (emitted (pushAll A fl s0 rs).2).length + 1 ≤
      ((rs.map (fun r => fl r.ts)).toFinset).card := by
  cases rs with
  | nil => exact absurd rfl hne
  | cons r rest =>
    rw [List.pairwise_cons] at hb
    have hp := push_uninit A fl s0 r.ts r.value h0
    have := pushAll_sorted_count A fl rest (push A fl s0 r.ts r.value).1
      (by rw [hp]) (by intro x hx; rw [hp]; exact hb.1 x hx) hb.2
    simp only [pushAll, emitted_cons]
    rw [hp] at this ⊢
    simpa using this

theorem mem_emitted (outs : List (Option (AvgOut α))) (a : AvgOut α) :
    a ∈ emitted outs ↔ some a ∈ outs := by
  simp [emitted]

end AggregatorLemmas

/-! ## Aggregator: the claims -/

section AggregatorClaims

open Aggregator

/-- C1. For readings with non-decreasing timestamps pushed one by one into a fresh
aggregator whose floor maps each instant to the start of its fixed period (length `P`,
phase `off`), every average returned by `push` is the mean of exactly the values of the
sequence whose floored bucket is its `period_start`, and the returned averages come in
non-decreasing `period_start` order. -/
theorem push_bucketing_correct {α : Type} (A : Arith α) (P off : Int) (hP : 0 < P)
    (rs : List (Reading α)) (hts : rs.Pairwise (fun a b => a.ts ≤ b.ts)) :
    (∀ a : AvgOut α, some a ∈ (pushAll A (periodFloor P off) (fresh A) rs).2 →
        a.avg = mean A (bucketValues (periodFloor P off) a.period_start rs)) ∧
      ((emitted (pushAll A (periodFloor P off) (fresh A) rs).2).map
        AvgOut.period_start).Pairwise (· ≤ ·) := by
  have hb := buckets_sorted (periodFloor P off) (fun s t h => periodFloor_mono P off hP h) rs hts
  obtain ⟨h1, h2⟩ := pushAll_fresh_sorted A (periodFloor P off) (fresh A) rfl rs hb
  exact ⟨fun a ha => h1 a ((mem_emitted _ a).2 ha), h2.imp (fun h => le_of_lt h)⟩

/-- Witness for C1: three readings over two hourly buckets. -/
theorem push_bucketing_correct_witness :
    (0 : Int) < 3600 ∧
    ([⟨36000, 1⟩, ⟨37800, 2⟩, ⟨39900, 3⟩] : List (Reading ℚ)).Pairwise (fun a b => a.ts ≤ b.ts) ∧
    ((∀ a : AvgOut ℚ,
        some a ∈ (pushAll ratArith (periodFloor 3600 0) (fresh ratArith)
          [⟨36000, 1⟩, ⟨37800, 2⟩, ⟨39900, 3⟩]).2 →
        a.avg = mean ratArith (bucketValues (periodFloor 3600 0) a.period_start
          [⟨36000, 1⟩, ⟨37800, 2⟩, ⟨39900, 3⟩])) ∧
      ((emitted (pushAll ratArith (periodFloor 3600 0) (fresh ratArith)
          [⟨36000, 1⟩, ⟨37800, 2⟩, ⟨39900, 3⟩]).2).map AvgOut.period_start).Pairwise (· ≤ ·)) :=
  ⟨by decide, by decide,
    push_bucketing_correct ratArith 3600 0 (by decide) [⟨36000, 1⟩, ⟨37800, 2⟩, ⟨39900, 3⟩]
      (by decide)⟩

/-- C2. `push` returns `AvgOut{m_start, m_sum / m_cnt}` of the state it is called on when
that state is initialised, the floored bucket of the reading differs from `m_start` and
`m_cnt` is nonzero, and returns nothing in every other case.  Scenario: 1.0 at 10:00:00,
2.0 at 10:30:00 and 3.0 at 11:05:00 pushed into a fresh hourly aggregator return nothing,
nothing, then the average 1.5 for the period starting 10:00:00. -/
theorem push_return_value :
    (∀ (α : Type) (A : Arith α) (fl : Int → Int) (s : Aggregator α) (ts : Int) (v : α),
      (push A fl s ts v).2 =
        if s.m_inited = true ∧ fl ts ≠ s.m_start ∧ s.m_cnt ≠ 0 then
          some ⟨s.m_start, A.divCount s.m_sum s.m_cnt⟩
        else none) ∧
    (pushAll ratArith floor_to_hour (fresh ratArith)
      [⟨10 * 3600, 1⟩, ⟨10 * 3600 + 30 * 60, 2⟩, ⟨11 * 3600 + 5 * 60, 3⟩]).2 =
        [none, none, some ⟨10 * 3600, 3 / 2⟩] := by
  constructor
  · intro α A fl s ts v
    cases hi : s.m_inited
    · simp [push_uninit A fl s ts v hi]
    · by_cases hb : fl ts = s.m_start
      · simp [push_same A fl s ts v hi hb, hb]
      · simp [push_cross A fl s ts v hi hb, hb, Nat.pos_iff_ne_zero]
  · decide!

/-- C3 as stated fails: readings in the buckets 0:00, 1:00, 0:00 (timestamps out of order)
span two distinct buckets and yet two of the three pushes return an average. -/
theorem push_count_unordered_counterexample :
    ¬ ((emitted (pushAll ratArith floor_to_hour (fresh ratArith)
          [⟨0, 1⟩, ⟨3600, 2⟩, ⟨0, 3⟩]).2).length ≤
        (([⟨0, 1⟩, ⟨3600, 2⟩, ⟨0, 3⟩] : List (Reading ℚ)).map
          (fun r => floor_to_hour r.ts)).toFinset.card - 1) := by
  decide!

/-- C3, amended. For `N ≥ 1` readings with non-decreasing timestamps pushed one by one into
a fresh aggregator with a fixed-period floor, the number of pushes that return an average
is at most `K - 1`, where `K` is the number of distinct floored buckets. -/
theorem push_count_sorted {α : Type} (A : Arith α) (P off : Int) (hP : 0 < P)
    (rs : List (Reading α)) (hne : rs ≠ [])
    (hts : rs.Pairwise (fun a b => a.ts ≤ b.ts)) :
    (emitted (pushAll A (periodFloor P off) (fresh A) rs).2).length ≤
      ((rs.map (fun r => periodFloor P off r.ts)).toFinset).card - 1 := by
  have hb := buckets_sorted (periodFloor P off) (fun s t h => periodFloor_mono P off hP h) rs hts
  have := pushAll_fresh_count A (periodFloor P off) (fresh A) rfl rs hne hb
  omega

/-- Witness for C3 (amended): three sorted readings over two hourly buckets. -/
theorem push_count_sorted_witness :
    (0 : Int) < 3600 ∧
    ([⟨36000, 1⟩, ⟨37800, 2⟩, ⟨39900, 3⟩] : List (Reading ℚ)) ≠ [] ∧
    ([⟨36000, 1⟩, ⟨37800, 2⟩, ⟨39900, 3⟩] : List (Reading ℚ)).Pairwise (fun a b => a.ts ≤ b.ts) ∧
    (emitted (pushAll ratArith (periodFloor 3600 0) (fresh ratArith)
        [⟨36000, 1⟩, ⟨37800, 2⟩, ⟨39900, 3⟩]).2).length ≤
      ((([⟨36000, 1⟩, ⟨37800, 2⟩, ⟨39900, 3⟩] : List (Reading ℚ)).map
        (fun r => periodFloor 3600 0 r.ts)).toFinset).card - 1 :=
  ⟨by decide, by simp, by decide,
    push_count_sorted ratArith 3600 0 (by decide) [⟨36000, 1⟩, ⟨37800, 2⟩, ⟨39900, 3⟩]
      (by simp) (by decide)⟩

/-- C10. After a non-empty sequence of readings (timestamps in any order) pushed into a
fresh aggregator, the state is initialised, `m_start` is the floored bucket of the last
reading, `m_cnt ≥ 1`, and `m_sum`, `m_cnt` are the sum and the number of the values of the
maximal trailing run of readings in that bucket (a suffix of the sequence, all in the
bucket `m_start`, preceded by a reading of another bucket or by nothing); so the count of
the open bucket is not zero when a later `push` divides by it. -/
theorem push_state_invariant {α : Type} (A : Arith α) (fl : Int → Int)
    (rs : List (Reading α)) (hne : rs ≠ []) :
    (pushAll A fl (fresh A) rs).1.m_inited = true ∧
    (pushAll A fl (fresh A) rs).1.m_start = fl (rs.getLast hne).ts ∧
    1 ≤ (pushAll A fl (fresh A) rs).1.m_cnt ∧
    (pushAll A fl (fresh A) rs).1.m_sum =
      ((trailingRun fl rs).map Reading.value).foldl A.add A.zero ∧
    (pushAll A fl (fresh A) rs).1.m_cnt = (trailingRun fl rs).length ∧
    (∀ r ∈ trailingRun fl rs, fl r.ts = (pushAll A fl (fresh A) rs).1.m_start) ∧
    (∃ pre, rs = pre ++ trailingRun fl rs ∧
      ∀ p, pre.getLast? = some p → fl p.ts ≠ (pushAll A fl (fresh A) rs).1.m_start) ∧
    (∀ (ts : Int) (v : α) (a : AvgOut α),
      (push A fl (pushAll A fl (fresh A) rs).1 ts v).2 = some a →
        (pushAll A fl (fresh A) rs).1.m_cnt ≠ 0 ∧
        a.avg = A.divCount (pushAll A fl (fresh A) rs).1.m_sum
          (pushAll A fl (fresh A) rs).1.m_cnt) := by
  obtain ⟨init, l, rfl⟩ : ∃ init l, rs = init ++ [l] :=
    ⟨rs.dropLast, rs.getLast hne, (List.dropLast_append_getLast hne).symm⟩
  obtain ⟨hi, hst, hsum, hcnt⟩ := pushAll_state A fl (fresh A) rfl init l
  have hrun : 1 ≤ (trailingRun fl (init ++ [l])).length := by
    rw [trailingRun_snoc]; simp
  refine ⟨hi, ?_, ?_, hsum, hcnt, ?_, ?_, ?_⟩
  · simpa using hst
  · rw [hcnt]; exact hrun
  · intro r hr
    rw [hst]
    rw [trailingRun_snoc] at hr
    rcases List.mem_append.1 hr with hr | hr
    · have := List.mem_takeWhile_imp (List.mem_reverse.1 hr)
      simpa using this
    · rw [List.mem_singleton.1 hr]
  · rw [hst]
    exact trailingRun_maximal fl init l
  · intro ts v a ha
    have hc : (pushAll A fl (fresh A) (init ++ [l])).1.m_cnt ≠ 0 := by
      rw [hcnt]; omega
    refine ⟨hc, ?_⟩
    by_cases hb : fl ts = (pushAll A fl (fresh A) (init ++ [l])).1.m_start
    · rw [push_same A fl _ ts v hi hb] at ha
      exact absurd ha (by simp)
    · rw [push_cross A fl _ ts v hi hb] at ha
      simp only [Nat.pos_of_ne_zero hc, if_true, Option.some.injEq] at ha
      rw [← ha]

/-- Witness for C10: after readings in the buckets 10:00, 11:00, 10:00 the open bucket is
10:00 and holds only the last reading. -/
theorem push_state_invariant_witness :
    ∃ hne : zigzagReadings ≠ [],
      ((pushAll ratArith floor_to_hour (fresh ratArith) zigzagReadings).1.m_inited = true ∧
      (pushAll ratArith floor_to_hour (fresh ratArith) zigzagReadings).1.m_start =
        floor_to_hour (zigzagReadings.getLast hne).ts ∧
      1 ≤ (pushAll ratArith floor_to_hour (fresh ratArith) zigzagReadings).1.m_cnt ∧
      (pushAll ratArith floor_to_hour (fresh ratArith) zigzagReadings).1.m_sum =
        ((trailingRun floor_to_hour zigzagReadings).map Reading.value).foldl
          ratArith.add ratArith.zero ∧
      (pushAll ratArith floor_to_hour (fresh ratArith) zigzagReadings).1.m_cnt =
        (trailingRun floor_to_hour zigzagReadings).length ∧
      (∀ r ∈ trailingRun floor_to_hour zigzagReadings,
        floor_to_hour r.ts =
          (pushAll ratArith floor_to_hour (fresh ratArith) zigzagReadings).1.m_start) ∧
      (∃ pre, zigzagReadings = pre ++ trailingRun floor_to_hour zigzagReadings ∧
        ∀ p, pre.getLast? = some p → floor_to_hour p.ts ≠
          (pushAll ratArith floor_to_hour (fresh ratArith) zigzagReadings).1.m_start) ∧
      (∀ (ts : Int) (v : ℚ) (a : AvgOut ℚ),
        (push ratArith floor_to_hour
            (pushAll ratArith floor_to_hour (fresh ratArith) zigzagReadings).1 ts v).2 = some a →
          (pushAll ratArith floor_to_hour (fresh ratArith) zigzagReadings).1.m_cnt ≠ 0 ∧
          a.avg = ratArith.divCount
            (pushAll ratArith floor_to_hour (fresh ratArith) zigzagReadings).1.m_sum
            (pushAll ratArith floor_to_hour (fresh ratArith) zigzagReadings).1.m_cnt)) ∧
      (pushAll ratArith floor_to_hour (fresh ratArith) zigzagReadings).1 =
        { m_inited := true, m_start := 36000, m_sum := 3, m_cnt := 1 } :=
  ⟨by decide, push_state_invariant ratArith floor_to_hour zigzagReadings (by decide),
    by decide!⟩

end AggregatorClaims




/-! ## Retention log: lemmas -/

section RetentionLemmas

variable {α : Type}

open RetentionLog

theorem drop_old_split (cut : Int) (data : List (LogRecord α)) :
    ∃ pre, data = pre ++ drop_old cut data ∧ ∀ r ∈ pre, r.ts < cut := by
  refine ⟨data.takeWhile (fun r => decide (r.ts < cut)), ?_, ?_⟩
  · exact (List.takeWhile_append_dropWhile _ data).symm
  · intro r hr
    simpa using List.mem_takeWhile_imp hr

theorem drop_old_sorted (cut : Int) (data : List (LogRecord α))
    (hs : data.Pairwise (fun a b => a.ts ≤ b.ts)) :
    drop_old cut data = data.filter (fun r => decide (cut ≤ r.ts)) := by
  induction data with
  | nil => rfl
  | cons r rest ih =>
    rw [List.pairwise_cons] at hs
    by_cases h : r.ts < cut
    · have hn : ¬ cut ≤ r.ts := not_le.2 h
      simp only [drop_old, List.dropWhile_cons, h, decide_True, if_true, List.filter_cons, hn,
        decide_False]
      exact ih hs.2
    · have hc : cut ≤ r.ts := not_lt.1 h
      simp only [drop_old, List.dropWhile_cons, h, decide_False, List.filter_cons, hc,
        decide_True, if_true]
      simp only [Bool.false_eq_true, if_false, List.cons.injEq, true_and]
      symm
      exact List.filter_eq_self.2 (fun x hx => by simpa using le_trans hc (hs.1 x hx))

theorem drop_old_sorted_ge (cut : Int) (data : List (LogRecord α))
    (hs : data.Pairwise (fun a b => a.ts ≤ b.ts)) :
    ∀ r ∈ drop_old cut data, cut ≤ r.ts := by
  intro r hr
  rw [drop_old_sorted cut data hs] at hr
  simpa using (List.mem_filter.1 hr).2

theorem tmp_path_ne (log : RetentionLog α) : log.tmp_path ≠ log.m_path := by
  intro h
  have := congrArg List.length h
  simp [tmp_path] at this

theorem find_eq_some (c : Char) (line : List Char) (n : Nat) :
    find c line = some n ↔ c ∉ line.take n ∧ line.drop n = c :: line.drop (n + 1) := by
  induction line generalizing n with
  | nil => simp [find]
  | cons x xs ih =>
    by_cases hx : x = c
    · subst hx
      cases n with
      | zero => simp [find]
      | succ n => simp [find]
    · cases n with
      | zero =>
        have : ¬ (c = x) := fun e => hx e.symm
        simp [find, hx]
      | succ n =>
        have : ¬ (c = x) := fun e => hx e.symm
        simp [find, hx, ih n, this]

theorem find_eq_none (c : Char) (line : List Char) : find c line = none ↔ c ∉ line := by
  induction line with
  | nil => simp [find]
  | cons x xs ih =>
    by_cases hx : x = c
    · simp [find, hx]
    · have : ¬ (c = x) := fun e => hx e.symm
      simp [find, hx, ih, this]

theorem find_append (c : Char) (pre post : List Char) (h : c ∉ pre) :
    find c (pre ++ c :: post) = some pre.length := by
  induction pre with
  | nil => simp [find]
  | cons x xs ih =>
    have hx : x ≠ c := fun e => h (by simp [e])
    have hxs : c ∉ xs := fun e => h (List.mem_cons_of_mem _ e)
    simp [find, hx, ih hxs]

theorem parse_line_append (F : TextFormat α) (pre post : List Char) (h : ' ' ∉ pre) :
    parse_line F (pre ++ ' ' :: post) =
      match F.parse_iso_local pre with
      | none => none
      | some tp =>
        match F.stod post with
        | none => none
        | some v => some { ts := tp, value := v } := by
  unfold parse_line
  rw [find_append ' ' pre post h]
  simp

theorem parse_line_eq_some (F : TextFormat α) (line : List Char) (r : LogRecord α) :
    parse_line F line = some r ↔
      ∃ pre post, line = pre ++ ' ' :: post ∧ ' ' ∉ pre ∧
        F.parse_iso_local pre = some r.ts ∧ F.stod post = some r.value := by
  constructor
  · intro h
    cases hf : find ' ' line with
    | none => simp [parse_line, hf] at h
    | some sp =>
      obtain ⟨h1, h2⟩ := (find_eq_some ' ' line sp).1 hf
      have hline : line = line.take sp ++ ' ' :: line.drop (sp + 1) := by
        rw [← h2, List.take_append_drop]
      rw [hline, parse_line_append F _ _ h1] at h
      refine ⟨line.take sp, line.drop (sp + 1), hline, h1, ?_⟩
      cases hp : F.parse_iso_local (line.take sp) with
      | none => simp [hp] at h
      | some tp =>
        cases hv : F.stod (line.drop (sp + 1)) with
        | none => simp [hp, hv] at h
        | some v =>
          simp only [hp, hv, Option.some.injEq] at h
          subst h
          exact ⟨rfl, rfl⟩
  · rintro ⟨pre, post, rfl, h1, hp, hv⟩
    rw [parse_line_append F _ _ h1, hp, hv]

theorem fs_tmp_written_tmp (F : TextFormat α) (log : RetentionLog α) (fs : FS) :
    fs_tmp_written F log fs log.tmp_path = some (serialize F log.m_data) := by
  simp [fs_tmp_written, FS.write]

theorem fs_tmp_written_backing (F : TextFormat α) (log : RetentionLog α) (fs : FS) :
    fs_tmp_written F log fs log.m_path = fs log.m_path := by
  have h : ¬ log.m_path = log.tmp_path := fun e => tmp_path_ne log e.symm
  simp [fs_tmp_written, FS.write, h]

theorem fs_before_rename_tmp (plat : Platform) (F : TextFormat α) (log : RetentionLog α)
    (fs : FS) : fs_before_rename plat F log fs log.tmp_path = some (serialize F log.m_data) := by
  have h := tmp_path_ne log
  cases hw : plat.win32 <;> simp [fs_before_rename, hw, FS.remove, h, fs_tmp_written_tmp]

/-- When its writes succeed, `rewrite_file` leaves the backing file holding exactly the
lines of the retained records. -/
theorem rewrite_file_backing (plat : Platform) (F : TextFormat α) (log : RetentionLog α)
    (fs : FS) : rewrite_file plat F log fs log.m_path = some (serialize F log.m_data) := by
  have h : ¬ log.m_path = log.tmp_path := fun e => tmp_path_ne log e.symm
  have ht := fs_before_rename_tmp plat F log fs
  cases hr : plat.renameOk <;>
    simp [rewrite_file, hr, FS.rename, FS.copy_file, ht, FS.remove, FS.write, h]

/-- The last state of the trace is the file system `rewrite_file` returns. -/
theorem rewrite_file_trace_last (plat : Platform) (F : TextFormat α) (log : RetentionLog α)
    (fs : FS) :
    ((rewrite_file_trace plat F log fs).getLast?).map Prod.snd =
      some (rewrite_file plat F log fs) := by
  cases hw : plat.win32 <;> cases hr : plat.renameOk <;>
    simp [rewrite_file_trace, rewrite_file, hw, hr]

theorem filterMap_skip {β γ : Type} (f : β → Option γ) (xs ys : List β) (bad : β)
    (h : f bad = none) : (xs ++ bad :: ys).filterMap f = (xs ++ ys).filterMap f := by
  simp [List.filterMap_append, List.filterMap_cons, h]

end RetentionLemmas


/-! ## The concrete text format: rounding, digits and timestamps -/

section NumericLemmas

theorem roundHalfEvenDiv_spec (a b : Nat) (hb : 0 < b) :
    |((roundHalfEvenDiv a b : Nat) : ℚ) - (a : ℚ) / (b : ℚ)| ≤ 1 / 2 := by
  have hbq : (0 : ℚ) < (b : ℚ) := by exact_mod_cast hb
  have hdm : (a : ℚ) = (b : ℚ) * ((a / b : Nat) : ℚ) + ((a % b : Nat) : ℚ) := by
    exact_mod_cast (Nat.div_add_mod a b).symm
  have hkey : (a : ℚ) / (b : ℚ) = ((a / b : Nat) : ℚ) + ((a % b : Nat) : ℚ) / (b : ℚ) := by
    field_simp
    linarith
  have hrem0 : (0 : ℚ) ≤ ((a % b : Nat) : ℚ) / (b : ℚ) := by positivity
  have hremlt : ((a % b : Nat) : ℚ) / (b : ℚ) < 1 := by
    rw [div_lt_one hbq]
    exact_mod_cast Nat.mod_lt a hb
  rw [hkey, abs_le]
  unfold roundHalfEvenDiv
  simp only
  by_cases h1 : 2 * (a % b) < b
  · have : ((a % b : Nat) : ℚ) / (b : ℚ) ≤ 1 / 2 := by
      rw [div_le_iff₀ hbq]
      have : (2 : ℚ) * ((a % b : Nat) : ℚ) < (b : ℚ) := by exact_mod_cast h1
      linarith
    simp only [h1, if_true]
    constructor <;> linarith
  · by_cases h2 : b < 2 * (a % b)
    · have : 1 / 2 ≤ ((a % b : Nat) : ℚ) / (b : ℚ) := by
        rw [le_div_iff₀ hbq]
        have : (b : ℚ) < (2 : ℚ) * ((a % b : Nat) : ℚ) := by exact_mod_cast h2
        linarith
      simp only [h1, if_false, h2, if_true, Nat.cast_add, Nat.cast_one]
      constructor <;> linarith
    · have heq : 2 * (a % b) = b := by omega
      have : ((a % b : Nat) : ℚ) / (b : ℚ) = 1 / 2 := by
        rw [div_eq_iff (ne_of_gt hbq)]
        have : (2 : ℚ) * ((a % b : Nat) : ℚ) = (b : ℚ) := by exact_mod_cast heq
        linarith
      simp only [h1, if_false, h2]
      split
      · constructor <;> linarith
      · simp only [Nat.cast_add, Nat.cast_one]
        constructor <;> linarith

theorem abs_eq_natAbs_div (q : ℚ) : |q| = (q.num.natAbs : ℚ) / (q.den : ℚ) := by
  conv_lhs => rw [← Rat.num_div_den q]
  rw [abs_div, Nat.abs_cast, Nat.cast_natAbs, Int.cast_abs]

theorem round3_error (q : ℚ) : |round3 q - q| ≤ 1 / 2000 := by
  have h := roundHalfEvenDiv_spec (q.num.natAbs * 1000) q.den q.den_pos
  have habs := abs_eq_natAbs_div q
  rw [abs_le] at h ⊢
  have hq : ((q.num.natAbs * 1000 : Nat) : ℚ) / (q.den : ℚ) = 1000 * |q| := by
    rw [habs]; push_cast; ring
  rw [hq] at h
  unfold round3 fixed3_thousandths
  by_cases hneg : q < 0
  · have : |q| = -q := abs_of_neg hneg
    rw [this] at h
    simp only [hneg, if_true]
    constructor <;> linarith [h.1, h.2]
  · have : |q| = q := abs_of_nonneg (not_lt.1 hneg)
    rw [this] at h
    simp only [hneg, if_false]
    constructor <;> linarith [h.1, h.2]

theorem round3_abs (q : ℚ) : |round3 q| = (fixed3_thousandths q : ℚ) / 1000 := by
  have hn : (0 : ℚ) ≤ (fixed3_thousandths q : ℚ) / 1000 := by positivity
  unfold round3
  split
  · rw [abs_neg, abs_of_nonneg hn]
  · rw [abs_of_nonneg hn]

theorem log2Floor_spec (fuel : Nat) : ∀ n, n ≤ fuel → n ≠ 0 →
    2 ^ log2Floor fuel n ≤ n ∧ n < 2 ^ (log2Floor fuel n + 1) := by
  induction fuel with
  | zero => intro n h h0; omega
  | succ fuel ih =>
    intro n h h0
    unfold log2Floor
    by_cases h2 : n < 2
    · simp only [h2, if_true]
      constructor <;> simp <;> omega
    · simp only [h2, if_false]
      obtain ⟨h3, h4⟩ := ih (n / 2) (by omega) (by omega)
      rw [pow_succ] at h4 ⊢
      rw [pow_succ]
      constructor <;> omega

theorem binaryExponent_le (q : ℚ) (hq : q ≠ 0) : (2 : ℚ) ^ binaryExponent q ≤ |q| := by
  unfold binaryExponent
  simp only
  split
  · assumption
  · have hnum : q.num.natAbs ≠ 0 := by
      simpa [Int.natAbs_eq_zero] using hq
    have hden : q.den ≠ 0 := q.den_nz
    obtain ⟨ha, _⟩ := log2Floor_spec q.num.natAbs q.num.natAbs (le_refl _) hnum
    obtain ⟨_, hb⟩ := log2Floor_spec q.den q.den (le_refl _) hden
    generalize log2Floor q.num.natAbs q.num.natAbs = la at ha
    generalize log2Floor q.den q.den = lb at hb
    rw [abs_eq_natAbs_div]
    have haq : (2 : ℚ) ^ la ≤ (q.num.natAbs : ℚ) := by exact_mod_cast ha
    have hbq : (q.den : ℚ) ≤ (2 : ℚ) ^ (lb + 1) := by exact_mod_cast le_of_lt hb
    have hdpos : (0 : ℚ) < (q.den : ℚ) := by exact_mod_cast q.den_pos
    have hexp : (2 : ℚ) ^ ((la : Int) - (lb : Int) - 1) = (2 : ℚ) ^ la / (2 : ℚ) ^ (lb + 1) := by
      have : ((la : Int) - (lb : Int) - 1) = (la : Int) - ((lb + 1 : Nat) : Int) := by
        push_cast; ring
      rw [this, zpow_sub₀ (by norm_num : (2 : ℚ) ≠ 0), zpow_natCast, zpow_natCast]
    rw [hexp]
    exact div_le_div₀ (by positivity) haq hdpos hbq

theorem toBinary64_error (q : ℚ) : |toBinary64 q - q| ≤ |q| / 2 ^ 53 := by
  unfold toBinary64
  by_cases hq : q = 0
  · simp [hq]
  · simp only [hq, if_false]
    have he := binaryExponent_le q hq
    generalize binaryExponent q = e at he
    have hu : (0 : ℚ) < (2 : ℚ) ^ (e - 52) := by positivity
    have hy0 : (0 : ℚ) ≤ |q| / (2 : ℚ) ^ (e - 52) := by positivity
    have hr := roundHalfEvenDiv_spec (|q| / (2 : ℚ) ^ (e - 52)).num.natAbs
      (|q| / (2 : ℚ) ^ (e - 52)).den (Rat.den_pos _)
    rw [← abs_eq_natAbs_div, abs_of_nonneg hy0] at hr
    generalize roundHalfEvenDiv (|q| / (2 : ℚ) ^ (e - 52)).num.natAbs
      (|q| / (2 : ℚ) ^ (e - 52)).den = n at hr
    have hmain : abs ((n : ℚ) * (2 : ℚ) ^ (e - 52) - abs q) ≤ abs q / 2 ^ 53 := by
      have h1 : (n : ℚ) * (2 : ℚ) ^ (e - 52) - abs q =
          ((n : ℚ) - abs q / (2 : ℚ) ^ (e - 52)) * (2 : ℚ) ^ (e - 52) := by
        field_simp
      rw [h1, abs_mul, abs_of_pos hu]
      have h2 : (2 : ℚ) ^ (e - 52) = (2 : ℚ) ^ e / 2 ^ 52 := by
        rw [zpow_sub₀ (by norm_num : (2 : ℚ) ≠ 0)]
        norm_num
      have h3 : (2 : ℚ) ^ (e - 52) ≤ abs q / 2 ^ 52 := by
        rw [h2]
        exact div_le_div_of_nonneg_right he (by positivity)
      calc abs ((n : ℚ) - abs q / (2 : ℚ) ^ (e - 52)) * (2 : ℚ) ^ (e - 52)
          ≤ 1 / 2 * (abs q / 2 ^ 52) := mul_le_mul hr h3 (le_of_lt hu) (by norm_num)
        _ = abs q / 2 ^ 53 := by ring
    by_cases hneg : q < 0
    · simp only [hneg, if_true]
      have : -((n : ℚ) * (2 : ℚ) ^ (e - 52)) - q = -((n : ℚ) * (2 : ℚ) ^ (e - 52) - abs q) := by
        rw [abs_of_neg hneg]; ring
      rw [this, abs_neg]
      exact hmain
    · simp only [hneg, if_false]
      have : abs q = q := abs_of_nonneg (not_lt.1 hneg)
      rw [this] at hmain
      rw [this]
      exact hmain

end NumericLemmas

section TextLemmas

theorem digitChar_spec : ∀ d < 10, (Nat.digitChar d).isDigit = true ∧
    (Nat.digitChar d).toNat - '0'.toNat = d := by decide

theorem natOfDigits_foldl (ds : List Char) (a : Nat) :
    ds.foldl (fun acc c => 10 * acc + (c.toNat - '0'.toNat)) a =
      a * 10 ^ ds.length + natOfDigits ds := by
  induction ds generalizing a with
  | nil => simp [natOfDigits]
  | cons c cs ih =>
    simp only [natOfDigits, List.foldl_cons, List.length_cons]
    rw [ih, ih (10 * 0 + _)]
    ring

theorem natOfDigits_cons (c : Char) (cs : List Char) :
    natOfDigits (c :: cs) = (c.toNat - '0'.toNat) * 10 ^ cs.length + natOfDigits cs := by
  simp only [natOfDigits, List.foldl_cons]
  rw [natOfDigits_foldl]
  simp [natOfDigits]

theorem natOfDigits_append (xs ys : List Char) :
    natOfDigits (xs ++ ys) = natOfDigits xs * 10 ^ ys.length + natOfDigits ys := by
  simp only [natOfDigits, List.foldl_append]
  rw [natOfDigits_foldl]
  simp [natOfDigits]

theorem toDigitsCore_spec (fuel : Nat) : ∀ (n : Nat) (acc : List Char), n < fuel →
    (∀ c ∈ acc, c.isDigit = true) →
    (∀ c ∈ Nat.toDigitsCore 10 fuel n acc, c.isDigit = true) ∧
    Nat.toDigitsCore 10 fuel n acc ≠ [] ∧
    natOfDigits (Nat.toDigitsCore 10 fuel n acc) = n * 10 ^ acc.length + natOfDigits acc := by
  induction fuel with
  | zero => intro n acc h; omega
  | succ fuel ih =>
    intro n acc hn hacc
    have hd := digitChar_spec (n % 10) (Nat.mod_lt _ (by decide))
    have hacc2 : ∀ c ∈ Nat.digitChar (n % 10) :: acc, c.isDigit = true := by
      intro c hc
      rcases List.mem_cons.1 hc with rfl | hc
      · exact hd.1
      · exact hacc c hc
    simp only [Nat.toDigitsCore]
    by_cases h0 : n / 10 = 0
    · simp only [h0, if_true]
      refine ⟨hacc2, by simp, ?_⟩
      rw [natOfDigits_cons, hd.2]
      have : n % 10 = n := by omega
      rw [this]
    · simp only [h0, if_false]
      have hlt : n / 10 < fuel := by omega
      obtain ⟨h1, h2, h3⟩ := ih (n / 10) (Nat.digitChar (n % 10) :: acc) hlt hacc2
      refine ⟨h1, h2, ?_⟩
      rw [h3, natOfDigits_cons, hd.2, List.length_cons, pow_succ]
      have hnm := Nat.div_add_mod n 10
      calc n / 10 * (10 ^ acc.length * 10) + (n % 10 * 10 ^ acc.length + natOfDigits acc)
          = (10 * (n / 10) + n % 10) * 10 ^ acc.length + natOfDigits acc := by ring
        _ = n * 10 ^ acc.length + natOfDigits acc := by rw [hnm]

theorem toDigits_spec (n : Nat) :
    (∀ c ∈ Nat.toDigits 10 n, c.isDigit = true) ∧ Nat.toDigits 10 n ≠ [] ∧
    natOfDigits (Nat.toDigits 10 n) = n := by
  have := toDigitsCore_spec (n + 1) n [] (Nat.lt_succ_self n) (by simp)
  simpa [Nat.toDigits, natOfDigits] using this

theorem digitsPadded_spec (w n : Nat) (hw : 0 < w) (hn : n < 10 ^ w) :
    (digitsPadded w n).length = w ∧ (∀ c ∈ digitsPadded w n, c.isDigit = true) ∧
    natOfDigits (digitsPadded w n) = n := by
  obtain ⟨h1, h2, h3⟩ := toDigits_spec n
  have hlen : (Nat.toDigits 10 n).length ≤ w := by
    simpa [Nat.toDigits] using Nat.toDigitsCore_length 10 (by decide) (n + 1) n w hn hw
  refine ⟨?_, ?_, ?_⟩
  · simp [digitsPadded]; omega
  · intro c hc
    simp only [digitsPadded, List.mem_append, List.mem_replicate] at hc
    rcases hc with ⟨_, rfl⟩ | hc
    · decide
    · exact h1 c hc
  · simp only [digitsPadded]
    rw [natOfDigits_append, h3]
    have : natOfDigits (List.replicate (w - (Nat.toDigits 10 n).length) '0') = 0 := by
      generalize w - (Nat.toDigits 10 n).length = k
      induction k with
      | zero => rfl
      | succ k ih => rw [List.replicate_succ, natOfDigits_cons, ih]; simp
    rw [this]; simp

theorem takeWhile_stop {β : Type} (p : β → Bool) (xs : List β) (y : β) (ys : List β)
    (hx : ∀ c ∈ xs, p c = true) (hy : p y = false) :
    (xs ++ y :: ys).takeWhile p = xs ∧ (xs ++ y :: ys).dropWhile p = y :: ys := by
  induction xs with
  | nil => simp [List.takeWhile, List.dropWhile, hy]
  | cons x xs ih =>
    have hxx : p x = true := hx x (List.mem_cons_self _ _)
    have := ih (fun c hc => hx c (List.mem_cons_of_mem _ hc))
    simp [List.takeWhile, List.dropWhile, hxx, this]

theorem takeWhile_all {β : Type} (p : β → Bool) (xs : List β)
    (hx : ∀ c ∈ xs, p c = true) :
    xs.takeWhile p = xs ∧ xs.dropWhile p = [] := by
  induction xs with
  | nil => simp
  | cons x xs ih =>
    have hxx : p x = true := hx x (List.mem_cons_self _ _)
    have := ih (fun c hc => hx c (List.mem_cons_of_mem _ hc))
    simp [List.takeWhile, List.dropWhile, hxx, this]

theorem isDigit_not_special (c : Char) (h : c.isDigit = true) :
    isspace c = false ∧ c ≠ '-' ∧ c ≠ '+' ∧ c ≠ '.' ∧ c ≠ ' ' ∧ c ≠ '\n' := by
  have hs : isspace c = false := by
    cases hsp : isspace c with
    | false => rfl
    | true =>
      simp only [isspace, Bool.or_eq_true, decide_eq_true_eq] at hsp
      rcases hsp with ((((rfl | rfl) | rfl) | rfl) | rfl) | rfl <;> simp at h
  refine ⟨hs, ?_, ?_, ?_, ?_, ?_⟩ <;> (rintro rfl; simp at h)

theorem stod_decimal_unsigned (ip fp : List Char) (hip : ∀ c ∈ ip, c.isDigit = true)
    (hfp : ∀ c ∈ fp, c.isDigit = true) (hne : ip ≠ []) :
    stod_decimal (ip ++ '.' :: fp) =
      some ((natOfDigits (ip ++ fp) : ℚ) / (10 : ℚ) ^ fp.length) := by
  obtain ⟨d, rest, rfl⟩ := List.exists_cons_of_ne_nil hne
  have hd : d.isDigit = true := hip d (List.mem_cons_self _ _)
  obtain ⟨hsp, hm, hp, _, _, _⟩ := isDigit_not_special d hd
  obtain ⟨h1, h2⟩ := takeWhile_stop Char.isDigit (d :: rest) '.' fp hip (by decide)
  obtain ⟨h3, h4⟩ := takeWhile_all Char.isDigit fp hfp
  have hm2 : ¬ ('-' = d) := fun e => hm e.symm
  have hp2 : ¬ ('+' = d) := fun e => hp e.symm
  have hdrop : ((d :: rest) ++ '.' :: fp).dropWhile isspace = (d :: rest) ++ '.' :: fp := by
    simp [List.dropWhile, hsp]
  unfold stod_decimal
  simp only [hdrop]
  simp only [List.cons_append, List.head?_cons, Option.some.injEq, hm, hp, or_self, if_false]
  rw [← List.cons_append, h1, h2]
  simp [h3, h4, stod_exponent]

theorem stod_decimal_negative (ip fp : List Char) (hip : ∀ c ∈ ip, c.isDigit = true)
    (hfp : ∀ c ∈ fp, c.isDigit = true) (hne : ip ≠ []) :
    stod_decimal ('-' :: (ip ++ '.' :: fp)) =
      some (-((natOfDigits (ip ++ fp) : ℚ) / (10 : ℚ) ^ fp.length)) := by
  obtain ⟨h1, h2⟩ := takeWhile_stop Char.isDigit ip '.' fp hip (by decide)
  obtain ⟨h3, h4⟩ := takeWhile_all Char.isDigit fp hfp
  have hdrop : ('-' :: (ip ++ '.' :: fp)).dropWhile isspace = '-' :: (ip ++ '.' :: fp) := by
    have : isspace '-' = false := by decide
    simp [List.dropWhile, this]
  unfold stod_decimal
  simp only [hdrop]
  simp only [List.head?_cons, true_or, if_true, List.tail_cons, h1, h2]
  simp [h3, h4, stod_exponent, hne]

theorem stod_decimal_put_fixed3 (q : ℚ) : stod_decimal (put_fixed3 q) = some (round3 q) := by
  obtain ⟨hi1, hi2, hi3⟩ := toDigits_spec (fixed3_thousandths q / 1000)
  obtain ⟨hf1, hf2, hf3⟩ := digitsPadded_spec 3 (fixed3_thousandths q % 1000) (by decide)
    (Nat.mod_lt _ (by decide))
  have hval : ((natOfDigits (Nat.toDigits 10 (fixed3_thousandths q / 1000) ++
      digitsPadded 3 (fixed3_thousandths q % 1000)) : Nat) : ℚ) /
        (10 : ℚ) ^ (digitsPadded 3 (fixed3_thousandths q % 1000)).length =
      (fixed3_thousandths q : ℚ) / 1000 := by
    rw [natOfDigits_append, hi3, hf3, hf1]
    have := Nat.div_add_mod (fixed3_thousandths q) 1000
    have h2 : fixed3_thousandths q / 1000 * 10 ^ 3 + fixed3_thousandths q % 1000 =
        fixed3_thousandths q := by omega
    rw [h2]
    norm_num
  unfold put_fixed3 round3
  by_cases hneg : q < 0
  · simp only [hneg, if_true, List.singleton_append, List.cons_append, List.append_assoc,
      List.nil_append]
    rw [stod_decimal_negative _ _ hi1 hf2 hi2, hval]
  · simp only [hneg, if_false, List.nil_append, List.append_assoc, List.singleton_append,
      List.cons_append]
    rw [stod_decimal_unsigned _ _ hi1 hf2 hi2, hval]

theorem stod_put_fixed3 (q : ℚ) (hq : |q| ≤ DBL_MAX) :
    stod (put_fixed3 q) = some (toBinary64 (round3 q)) := by
  have herr := round3_error q
  have habs := round3_abs q
  have hlow : ¬ (0 < |round3 q| ∧ |round3 q| < DBL_MIN) := by
    rintro ⟨h0, h1⟩
    rw [habs] at h0 h1
    have hn : 1 ≤ fixed3_thousandths q := by
      rcases Nat.eq_zero_or_pos (fixed3_thousandths q) with h | h
      · rw [h] at h0; simp at h0
      · exact h
    have hn2 : (1 : ℚ) ≤ (fixed3_thousandths q : ℚ) := by exact_mod_cast hn
    have hmin : DBL_MIN ≤ 1 / 1000 := by
      unfold DBL_MIN
      norm_num
    have : (1 : ℚ) / 1000 ≤ (fixed3_thousandths q : ℚ) / 1000 := by linarith
    linarith
  have hhigh : ¬ (DBL_OVERFLOW ≤ |round3 q|) := by
    have h1 : |round3 q| ≤ |q| + 1 / 2000 := by
      have := abs_sub_abs_le_abs_sub (round3 q) q
      linarith
    have h2 : DBL_MAX + 1 / 2000 < DBL_OVERFLOW := by
      unfold DBL_MAX DBL_OVERFLOW
      norm_num
    intro h
    linarith
  unfold stod
  rw [stod_decimal_put_fixed3]
  simp only [hhigh, hlow, or_self, if_false]

end TextLemmas

section TimestampLemmas

theorem yoe_range (doe : Int) (h0 : 0 ≤ doe) (h1 : doe ≤ 146096) :
    0 ≤ (doe - doe / 1460 + doe / 36524 - doe / 146096) / 365 ∧
    (doe - doe / 1460 + doe / 36524 - doe / 146096) / 365 ≤ 399 := by
  omega

theorem doy_range (doe yoe : Int) (h0 : 0 ≤ doe) (h1 : doe ≤ 146096)
    (hy : yoe = (doe - doe / 1460 + doe / 36524 - doe / 146096) / 365) :
    0 ≤ doe - (365 * yoe + yoe / 4 - yoe / 100) ∧
    doe - (365 * yoe + yoe / 4 - yoe / 100) ≤ 365 := by
  have hc : doe / 36524 = 0 ∨ doe / 36524 = 1 ∨ doe / 36524 = 2 ∨ doe / 36524 = 3 ∨
      doe / 36524 = 4 := by omega
  have hy100 : yoe / 100 = 0 ∨ yoe / 100 = 1 ∨ yoe / 100 = 2 ∨ yoe / 100 = 3 := by omega
  rcases hc with hc | hc | hc | hc | hc <;> rcases hy100 with h | h | h | h <;> omega

theorem civil_roundtrip (z : Int) :
    days_from_civil (civil_from_days z).1 (civil_from_days z).2.1 (civil_from_days z).2.2 = z ∧
    1 ≤ (civil_from_days z).2.1 ∧ (civil_from_days z).2.1 ≤ 12 ∧
    1 ≤ (civil_from_days z).2.2 ∧ (civil_from_days z).2.2 ≤ 31 := by
  have hdoe0 : 0 ≤ z + 719468 - (z + 719468) / 146097 * 146097 := by omega
  have hdoe1 : z + 719468 - (z + 719468) / 146097 * 146097 ≤ 146096 := by omega
  generalize hdoe : z + 719468 - (z + 719468) / 146097 * 146097 = doe at hdoe0 hdoe1
  generalize hera : (z + 719468) / 146097 = era at hdoe
  obtain ⟨hy0, hy1⟩ := yoe_range doe hdoe0 hdoe1
  obtain ⟨hd0, hd1⟩ := doy_range doe _ hdoe0 hdoe1 rfl
  simp only [days_from_civil, civil_from_days, hera, hdoe]
  generalize (doe - doe / 1460 + doe / 36524 - doe / 146096) / 365 = yoe at hy0 hy1 hd0 hd1
  generalize hdoy : doe - (365 * yoe + yoe / 4 - yoe / 100) = doy at hd0 hd1
  have hE : (yoe + era * 400) / 400 = era := by omega
  have hmp0 : 0 ≤ (5 * doy + 2) / 153 := by omega
  have hmp1 : (5 * doy + 2) / 153 ≤ 11 := by omega
  have hday0 : 1 ≤ doy - (153 * ((5 * doy + 2) / 153) + 2) / 5 + 1 := by omega
  have hday1 : doy - (153 * ((5 * doy + 2) / 153) + 2) / 5 + 1 ≤ 31 := by omega
  generalize hmp : (5 * doy + 2) / 153 = mp at hmp0 hmp1 hday0 hday1
  generalize hq : (153 * mp + 2) / 5 = q at hday0 hday1
  by_cases hlt : mp < 10
  · have h3 : ¬ (mp + 3 ≤ 2) := by omega
    have h4 : mp + 3 > 2 := by omega
    have h6 : yoe + era * 400 - era * 400 = yoe := by omega
    simp only [hlt, if_true, h3, if_false, h4, hE, h6]
    have : mp + 3 - 3 = mp := by omega
    rw [this, hq]
    refine ⟨by omega, by omega, by omega, hday0, hday1⟩
  · have h3 : mp - 9 ≤ 2 := by omega
    have h4 : ¬ (mp - 9 > 2) := by omega
    have h5 : yoe + era * 400 + 1 - 1 = yoe + era * 400 := by omega
    have h6 : yoe + era * 400 - era * 400 = yoe := by omega
    simp only [hlt, if_false, h3, if_true, h4, h5, hE, h6]
    have : mp - 9 + 9 = mp := by omega
    rw [this, hq]
    refine ⟨by omega, by omega, by omega, hday0, hday1⟩

theorem days_from_civil_lower (y m d : Int) (hm0 : 1 ≤ m) (hm1 : m ≤ 12) (hd0 : 1 ≤ d)
    (hd1 : d ≤ 31) (hy : y ≤ -1) : days_from_civil y m d < -719528 := by
  simp only [days_from_civil]
  by_cases hm : m ≤ 2
  · have h2 : ¬ (m > 2) := by omega
    simp only [hm, if_true, h2, if_false]
    generalize hy1 : y - 1 = y1
    have hy1' : y1 ≤ -2 := by omega
    generalize he : y1 / 400 = era
    have hera : era ≤ -1 := by omega
    generalize hyoe : y1 - era * 400 = yoe
    have hyoe0 : 0 ≤ yoe := by omega
    have hyoe1 : yoe ≤ 399 := by omega
    have hyoe2 : era = -1 → yoe ≤ 398 := by omega
    omega
  · have h2 : m > 2 := by omega
    simp only [hm, if_false, h2, if_true]
    generalize he : y / 400 = era
    have hera : era ≤ -1 := by omega
    generalize hyoe : y - era * 400 = yoe
    have hyoe0 : 0 ≤ yoe := by omega
    have hyoe1 : yoe ≤ 399 := by omega
    omega

theorem days_from_civil_upper (y m d : Int) (hm0 : 1 ≤ m) (hm1 : m ≤ 12) (hd0 : 1 ≤ d)
    (hd1 : d ≤ 31) (hy : 10000 ≤ y) : 2932896 < days_from_civil y m d := by
  simp only [days_from_civil]
  by_cases hm : m ≤ 2
  · have h2 : ¬ (m > 2) := by omega
    simp only [hm, if_true, h2, if_false]
    generalize hy1 : y - 1 = y1
    have hy1' : 9999 ≤ y1 := by omega
    generalize he : y1 / 400 = era
    have hera : 24 ≤ era := by omega
    generalize hyoe : y1 - era * 400 = yoe
    have hyoe0 : 0 ≤ yoe := by omega
    have hyoe1 : yoe ≤ 399 := by omega
    have hyoe2 : era = 24 → 399 ≤ yoe := by omega
    omega
  · have h2 : m > 2 := by omega
    simp only [hm, if_false, h2, if_true]
    generalize he : y / 400 = era
    have hera : 25 ≤ era := by omega
    generalize hyoe : y - era * 400 = yoe
    have hyoe0 : 0 ≤ yoe := by omega
    have hyoe1 : yoe ≤ 399 := by omega
    omega

theorem civil_year_range (z : Int) (h0 : -719528 ≤ z) (h1 : z ≤ 2932896) :
    0 ≤ (civil_from_days z).1 ∧ (civil_from_days z).1 ≤ 9999 := by
  obtain ⟨hrt, hm0, hm1, hd0, hd1⟩ := civil_roundtrip z
  constructor
  · by_contra hneg
    have := days_from_civil_lower _ _ _ hm0 hm1 hd0 hd1 (by omega : (civil_from_days z).1 ≤ -1)
    omega
  · by_contra hneg
    have := days_from_civil_upper _ _ _ hm0 hm1 hd0 hd1 (by omega : 10000 ≤ (civil_from_days z).1)
    omega

theorem digitsPadded_two (k : Nat) (hk : k < 100) :
    ∃ a b, digitsPadded 2 k = [a, b] ∧ a.isDigit = true ∧ b.isDigit = true ∧
      natOfDigits [a, b] = k := by
  obtain ⟨h1, h2, h3⟩ := digitsPadded_spec 2 k (by decide) (by omega)
  match hl : digitsPadded 2 k, h1 with
  | [a, b], _ =>
    rw [hl] at h2 h3
    exact ⟨a, b, rfl, h2 a (by simp), h2 b (by simp), h3⟩

theorem digitsPadded_four (k : Nat) (hk : k < 10000) :
    ∃ a b c d, digitsPadded 4 k = [a, b, c, d] ∧ a.isDigit = true ∧ b.isDigit = true ∧
      c.isDigit = true ∧ d.isDigit = true ∧ natOfDigits [a, b, c, d] = k := by
  obtain ⟨h1, h2, h3⟩ := digitsPadded_spec 4 k (by decide) (by omega)
  match hl : digitsPadded 4 k, h1 with
  | [a, b, c, d], _ =>
    rw [hl] at h2 h3
    exact ⟨a, b, c, d, rfl, h2 a (by simp), h2 b (by simp), h2 c (by simp), h2 d (by simp), h3⟩

/-- Within the years 0000 to 9999 the timestamp text is read back as the instant it was
written for, and it contains neither a space nor a newline. -/
theorem parse_format_iso_local (t : Int) (h0 : TS_MIN ≤ t) (h1 : t ≤ TS_MAX) :
    parse_iso_local (format_iso_local t) = some t ∧
    ' ' ∉ format_iso_local t ∧ '\n' ∉ format_iso_local t := by
  unfold TS_MIN at h0
  unfold TS_MAX at h1
  have hz0 : -719528 ≤ t / 86400 := by omega
  have hz1 : t / 86400 ≤ 2932896 := by omega
  obtain ⟨hrt, hm0, hm1, hd0, hd1⟩ := civil_roundtrip (t / 86400)
  obtain ⟨hy0, hy1⟩ := civil_year_range (t / 86400) hz0 hz1
  rcases hc : civil_from_days (t / 86400) with ⟨y, m, d⟩
  rw [hc] at hrt hm0 hm1 hd0 hd1 hy0 hy1
  simp only at hrt hm0 hm1 hd0 hd1 hy0 hy1
  obtain ⟨y1, y2, y3, y4, hY, hy1d, hy2d, hy3d, hy4d, hYv⟩ :=
    digitsPadded_four y.toNat (by omega)
  obtain ⟨m1, m2, hM, hm1d, hm2d, hMv⟩ := digitsPadded_two m.toNat (by omega)
  obtain ⟨d1, d2, hD, hd1d, hd2d, hDv⟩ := digitsPadded_two d.toNat (by omega)
  obtain ⟨a1, a2, hH, ha1d, ha2d, hHv⟩ :=
    digitsPadded_two (t % 86400 / 3600).toNat (by omega)
  obtain ⟨b1, b2, hN, hb1d, hb2d, hNv⟩ :=
    digitsPadded_two (t % 86400 % 3600 / 60).toNat (by omega)
  obtain ⟨c1, c2, hS, hc1d, hc2d, hSv⟩ :=
    digitsPadded_two (t % 86400 % 60).toNat (by omega)
  have hfmt : format_iso_local t =
      [y1, y2, y3, y4, '-', m1, m2, '-', d1, d2, 'T', a1, a2, ':', b1, b2, ':', c1, c2] := by
    simp only [format_iso_local, hc, hY, hM, hD, hH, hN, hS]
    rfl
  rw [hfmt]
  have key : ∀ c ∈ [y1, y2, y3, y4, '-', m1, m2, '-', d1, d2, 'T', a1, a2, ':', b1, b2, ':',
      c1, c2], c = '-' ∨ c = 'T' ∨ c = ':' ∨ c.isDigit = true := by
    intro c hc
    simp only [List.mem_cons, List.mem_singleton, List.not_mem_nil, or_false] at hc
    rcases hc with rfl | rfl | rfl | rfl | rfl | rfl | rfl | rfl | rfl | rfl | rfl | rfl | rfl |
      rfl | rfl | rfl | rfl | rfl | rfl
    exacts [Or.inr (Or.inr (Or.inr hy1d)),
      Or.inr (Or.inr (Or.inr hy2d)),
      Or.inr (Or.inr (Or.inr hy3d)),
      Or.inr (Or.inr (Or.inr hy4d)),
      Or.inl rfl,
      Or.inr (Or.inr (Or.inr hm1d)),
      Or.inr (Or.inr (Or.inr hm2d)),
      Or.inl rfl,
      Or.inr (Or.inr (Or.inr hd1d)),
      Or.inr (Or.inr (Or.inr hd2d)),
      Or.inr (Or.inl rfl),
      Or.inr (Or.inr (Or.inr ha1d)),
      Or.inr (Or.inr (Or.inr ha2d)),
      Or.inr (Or.inr (Or.inl rfl)),
      Or.inr (Or.inr (Or.inr hb1d)),
      Or.inr (Or.inr (Or.inr hb2d)),
      Or.inr (Or.inr (Or.inl rfl)),
      Or.inr (Or.inr (Or.inr hc1d)),
      Or.inr (Or.inr (Or.inr hc2d))]
  refine ⟨?_, ?_, ?_⟩
  · simp only [parse_iso_local, List.all_cons, List.all_nil, hy1d, hy2d, hy3d, hy4d, hm1d, hm2d,
      hd1d, hd2d, ha1d, ha2d, hb1d, hb2d, hc1d, hc2d, Bool.and_self, if_true, hYv, hMv, hDv, hHv,
      hNv, hSv]
    have hrange : 1 ≤ m.toNat ∧ m.toNat ≤ 12 ∧ 1 ≤ d.toNat ∧ d.toNat ≤ 31 ∧
        (t % 86400 / 3600).toNat ≤ 23 ∧ (t % 86400 % 3600 / 60).toNat ≤ 59 ∧
        (t % 86400 % 60).toNat ≤ 60 := by omega
    rw [if_pos hrange]
    have e1 : ((y.toNat : Nat) : Int) = y := Int.toNat_of_nonneg hy0
    have e2 : ((m.toNat : Nat) : Int) = m := Int.toNat_of_nonneg (by omega)
    have e3 : ((d.toNat : Nat) : Int) = d := Int.toNat_of_nonneg (by omega)
    rw [e1, e2, e3, hrt]
    congr 1
    omega
  · intro h
    rcases key _ h with h | h | h | h <;> revert h <;> decide
  · intro h
    rcases key _ h with h | h | h | h <;> revert h <;> decide

theorem put_fixed3_no_separator (q : ℚ) : ' ' ∉ put_fixed3 q ∧ '\n' ∉ put_fixed3 q := by
  obtain ⟨hi1, _, _⟩ := toDigits_spec (fixed3_thousandths q / 1000)
  obtain ⟨_, hf2, _⟩ := digitsPadded_spec 3 (fixed3_thousandths q % 1000) (by decide)
    (Nat.mod_lt _ (by decide))
  have key : ∀ c ∈ put_fixed3 q, c = '-' ∨ c = '.' ∨ c.isDigit = true := by
    intro c hc
    simp only [put_fixed3, List.mem_append, List.mem_singleton] at hc
    rcases hc with ((hc | hc) | hc) | hc
    · split at hc
      · left; simpa using hc
      · simp at hc
    · exact Or.inr (Or.inr (hi1 c hc))
    · exact Or.inr (Or.inl hc)
    · exact Or.inr (Or.inr (hf2 c hc))
  constructor
  · intro h
    rcases key _ h with h | h | h <;> revert h <;> decide
  · intro h
    rcases key _ h with h | h | h <;> revert h <;> decide

end TimestampLemmas

section RecordLemmas

open RetentionLog

/-- In the concrete text format, the line written for a record with a timestamp in the years
0000 to 9999 and a finite value contains no newline and is read back as the record with
the same timestamp and the value rounded to three fractional digits, as binary64. -/
theorem parse_format_record (r : LogRecord ℚ) (h0 : TS_MIN ≤ r.ts) (h1 : r.ts ≤ TS_MAX)
    (hv : |r.value| ≤ DBL_MAX) :
    '\n' ∉ format_record ratFormat r ∧
    parse_line ratFormat (format_record ratFormat r) =
      some { ts := r.ts, value := toBinary64 (round3 r.value) } := by
  obtain ⟨hp, hsp, hnl⟩ := parse_format_iso_local r.ts h0 h1
  obtain ⟨_, hnl2⟩ := put_fixed3_no_separator r.value
  have hform : format_record ratFormat r =
      format_iso_local r.ts ++ ' ' :: put_fixed3 r.value := by
    simp [format_record, ratFormat]
  rw [hform]
  constructor
  · intro h
    rcases List.mem_append.1 h with h | h
    · exact hnl h
    · rcases List.mem_cons.1 h with h | h
      · exact absurd h (by decide)
      · exact hnl2 h
  · have e1 : ratFormat.parse_iso_local = parse_iso_local := rfl
    have e2 : ratFormat.stod = stod := rfl
    rw [parse_line_append ratFormat _ _ hsp, e1, e2, hp, stod_put_fixed3 r.value hv]

end RecordLemmas

/-! ## The concrete text format on examples -/

section FormatExamples

theorem format_iso_local_example :
    format_iso_local 1704067200 = "2024-01-01T00:00:00".toList := by decide!

theorem parse_iso_local_example :
    parse_iso_local "2024-01-01T00:00:00".toList = some 1704067200 := by decide!

theorem put_fixed3_example : put_fixed3 (234567 / 10000) = "23.457".toList := by decide!

theorem put_fixed3_negative_example : put_fixed3 (-5 / 4) = "-1.250".toList := by decide!

theorem stod_example :
    stod "23.457".toList = some (3301279264350929 / 140737488355328) := by decide!

theorem stod_decimal_example : stod_decimal "23.457".toList = some (23457 / 1000) := by decide!

theorem stod_prefix_example : stod " -1.5e2 extra".toList = some (-150) := by decide!

theorem stod_no_digits_example : stod "abc".toList = none := by decide!

theorem stod_overflow_example : stod "1e999".toList = none := by decide!

theorem stod_underflow_example : stod "1e-320".toList = none := by decide!

theorem stod_zero_example : stod "0.000".toList = some 0 := by decide!

theorem toBinary64_example :
    toBinary64 (234567 / 10000) = 6602474086208845 / 281474976710656 ∧
    toBinary64 (3 / 2) = 3 / 2 ∧ toBinary64 (-1 / 16) = -1 / 16 ∧
    toBinary64 (62 / 1000) = 1116892707587883 / 18014398509481984 := by decide!

theorem stod_put_fixed3_example :
    stod (put_fixed3 (toBinary64 (234567 / 10000))) = some (toBinary64 (23457 / 1000)) := by
  decide!

theorem timestamp_range_example :
    format_iso_local TS_MIN = "0000-01-01T00:00:00".toList ∧
    format_iso_local TS_MAX = "9999-12-31T23:59:59".toList ∧
    format_iso_local (TS_MAX + 1) = "10000-01-01T00:00:00".toList := by decide!

theorem getlines_example :
    getlines "ab\ncd\n\nx".toList = ["ab".toList, "cd".toList, [], "x".toList] := by decide

theorem format_line_example :
    format_line ratFormat ⟨1704067200, 234567 / 10000⟩ =
      "2024-01-01T00:00:00 23.457\n".toList := by decide!

end FormatExamples

/-! ## Retention log: the claims -/

section RetentionClaims

open RetentionLog

/-- C4 as stated fails: the raw log (cutoff `now - 24h`) receives a record stamped `now`
and then one stamped 48 hours earlier; `compact_to_disk(now)` keeps the older record, and
so does `load_and_compact(now)` reading the two lines back, because only records at the
front are dropped. -/
theorem retention_unsorted_counterexample :
    (∃ r ∈ (compact_to_disk posix ratFormat rawLogUnsorted.1 rawLogUnsorted.2
          scenarioNow).1.m_data, r.ts < rawCutoff scenarioNow) ∧
    (∃ r ∈ (load_and_compact posix ratFormat rawLogUnsorted.1 rawLogUnsorted.2
          scenarioNow).1.m_data, r.ts < rawCutoff scenarioNow) := by
  decide!

/-- C4, amended. If the in-memory records are ascending by timestamp, no record retained
by `compact_to_disk(now)` has a timestamp below `cutoffFn(now)`; if the well-formed records
of the backing file are in ascending timestamp order, no record retained by
`load_and_compact(now)` has a timestamp below `cutoffFn(now)`. -/
theorem retention_invariant_sorted {α : Type} (plat : Platform) (F : TextFormat α)
    (log : RetentionLog α) (fs : FS) (now : Int) :
    (log.m_data.Pairwise (fun a b => a.ts ≤ b.ts) →
      ∀ r ∈ (compact_to_disk plat F log fs now).1.m_data, log.m_cutoff now ≤ r.ts) ∧
    ((read_records F log fs).Pairwise (fun a b => a.ts ≤ b.ts) →
      ∀ r ∈ (load_and_compact plat F log fs now).1.m_data, log.m_cutoff now ≤ r.ts) :=
  ⟨fun hs => drop_old_sorted_ge _ _ hs, fun hs => drop_old_sorted_ge _ _ hs⟩

/-- C5. If the in-memory records are ascending by timestamp, `compact_to_disk(now)` leaves
exactly the records with timestamp `≥ cutoffFn(now)` in their original order: what it
removes is a prefix of the sequence, all of it older than the cutoff, and the kept
records are the remaining suffix, unchanged. -/
theorem compact_keeps_recent {α : Type} (plat : Platform) (F : TextFormat α)
    (log : RetentionLog α) (fs : FS) (now : Int)
    (hs : log.m_data.Pairwise (fun a b => a.ts ≤ b.ts)) :
    (compact_to_disk plat F log fs now).1.m_data =
        log.m_data.filter (fun r => decide (log.m_cutoff now ≤ r.ts)) ∧
      ∃ pre, log.m_data = pre ++ (compact_to_disk plat F log fs now).1.m_data ∧
        ∀ r ∈ pre, r.ts < log.m_cutoff now :=
  ⟨drop_old_sorted _ _ hs, drop_old_split _ _⟩

/-- Witness for C4 (amended): the raw log holding records at `now - 25h` and `now - 1h`. -/
theorem retention_invariant_sorted_witness :
    rawLogTwo.1.m_data.Pairwise (fun a b => a.ts ≤ b.ts) ∧
    (read_records ratFormat rawLogTwo.1 rawLogTwo.2).Pairwise (fun a b => a.ts ≤ b.ts) ∧
    (∀ r ∈ (compact_to_disk posix ratFormat rawLogTwo.1 rawLogTwo.2 scenarioNow).1.m_data,
      rawLogTwo.1.m_cutoff scenarioNow ≤ r.ts) ∧
    (∀ r ∈ (load_and_compact posix ratFormat rawLogTwo.1 rawLogTwo.2 scenarioNow).1.m_data,
      rawLogTwo.1.m_cutoff scenarioNow ≤ r.ts) :=
  have h := retention_invariant_sorted posix ratFormat rawLogTwo.1 rawLogTwo.2 scenarioNow
  ⟨by decide!, by decide!, h.1 (by decide!), h.2 (by decide!)⟩

/-- Witness for C5: with cutoff `now - 24h`, the raw log holding records at `now - 25h` and
`now - 1h` holds only the `now - 1h` record after `compact_to_disk(now)`. -/
theorem compact_keeps_recent_witness :
    rawLogTwo.1.m_data = [⟨scenarioNow - 25 * 3600, 41 / 2⟩, ⟨scenarioNow - 3600, 85 / 4⟩] ∧
    rawLogTwo.1.m_data.Pairwise (fun a b => a.ts ≤ b.ts) ∧
    (compact_to_disk posix ratFormat rawLogTwo.1 rawLogTwo.2 scenarioNow).1.m_data =
      [⟨scenarioNow - 3600, 85 / 4⟩] ∧
    ((compact_to_disk posix ratFormat rawLogTwo.1 rawLogTwo.2 scenarioNow).1.m_data =
        rawLogTwo.1.m_data.filter (fun r => decide (rawLogTwo.1.m_cutoff scenarioNow ≤ r.ts)) ∧
      ∃ pre, rawLogTwo.1.m_data =
          pre ++ (compact_to_disk posix ratFormat rawLogTwo.1 rawLogTwo.2 scenarioNow).1.m_data ∧
        ∀ r ∈ pre, r.ts < rawLogTwo.1.m_cutoff scenarioNow) :=
  ⟨by decide!, by decide!, by decide!,
    compact_keeps_recent posix ratFormat rawLogTwo.1 rawLogTwo.2 scenarioNow (by decide!)⟩

/-- C7 as stated fails: on a Windows build `rewrite_file` removes the backing file after
the temporary file is written and before the rename, so at that point the backing file
does not exist. -/
theorem rewrite_win32_counterexample :
    oneLineFS rawLog.m_path = some "2024-01-01T00:00:00 1.000\n".toList ∧
    ∃ p ∈ rewrite_file_trace windows ratFormat rawLog oneLineFS,
      p.1.awaitingRename = true ∧ p.2 rawLog.m_path = none := by
  refine ⟨by decide, (Stage.targetRemoved, fs_before_rename windows ratFormat rawLog oneLineFS),
    ?_, by decide, by decide⟩
  simp [rewrite_file_trace, windows]

/-- C7, amended. On a build without `_WIN32`, at every point of `rewrite_file` after the
temporary file has been written and before the rename onto the backing path has
completed, the backing file is what it was before the call: it exists with its prior
content, byte for byte. -/
theorem rewrite_keeps_backing {α : Type} (plat : Platform) (F : TextFormat α)
    (log : RetentionLog α) (fs : FS) (prior : List Char)
    (hposix : plat.win32 = false) (hprior : fs log.m_path = some prior) :
    ∀ p ∈ rewrite_file_trace plat F log fs,
      p.1.awaitingRename = true → p.2 log.m_path = some prior := by
  intro p hp haw
  have h1 := fs_tmp_written_backing F log fs
  obtain ⟨st, fs2⟩ := p
  cases st <;> simp only [Stage.awaitingRename, Bool.false_eq_true] at haw
  · -- after the temporary file is written
    have : fs2 = fs_tmp_written F log fs := by
      cases hr : plat.renameOk <;>
        simpa [rewrite_file_trace, hposix, hr] using hp
    subst this
    show fs_tmp_written F log fs log.m_path = some prior
    rw [h1, hprior]
  · -- after the `_WIN32` block: not reached on this build
    cases hr : plat.renameOk <;>
      simp [rewrite_file_trace, hposix, hr] at hp

/-- Witness for C7 (amended): rewriting the raw log, with no records in memory, over a
backing file that holds one line; at the point where the temporary file has been written
the backing file still holds that line. -/
theorem rewrite_keeps_backing_witness :
    posix.win32 = false ∧
    oneLineFS rawLog.m_path = some "2024-01-01T00:00:00 1.000\n".toList ∧
    (Stage.tmpWritten, fs_tmp_written ratFormat rawLog oneLineFS) ∈
      rewrite_file_trace posix ratFormat rawLog oneLineFS ∧
    Stage.awaitingRename Stage.tmpWritten = true ∧
    fs_tmp_written ratFormat rawLog oneLineFS rawLog.m_path =
      some "2024-01-01T00:00:00 1.000\n".toList :=
  ⟨rfl, by decide, by simp [rewrite_file_trace, posix], rfl,
    rewrite_keeps_backing posix ratFormat rawLog oneLineFS _ rfl (by decide)
      (Stage.tmpWritten, fs_tmp_written ratFormat rawLog oneLineFS)
      (by simp [rewrite_file_trace, posix]) rfl⟩

/-- C8 as stated fails: the line `2024-01-01T00:00:00 1.5 extra` has three fields, and
`parse_line` turns it into the record `(2024-01-01T00:00:00, 1.5)`, because `std::stod`
converts the longest numeric prefix of the text after the first space and ignores the
rest. -/
theorem parse_line_three_fields_counterexample :
    parse_line ratFormat "2024-01-01T00:00:00 1.5 extra".toList = some ⟨1704067200, 3 / 2⟩ ∧
    twoFields "2024-01-01T00:00:00 1.5 extra".toList = false := by
  decide!

/-- C8, amended. `load_and_compact` reads the lines of the backing file independently of
one another.  A line becomes a record exactly when it contains a space, the text before
its first space is accepted by `parse_iso_local`, and the text after its first space is
accepted by `std::stod`; every other line is skipped, and removing a skipped line from the
file does not change what is read. -/
theorem read_records_spec {α : Type} (F : TextFormat α) (log : RetentionLog α) (fs : FS)
    (content : List Char) :
    read_records F log (fs.write log.m_path content) =
      (getlines content).filterMap (parse_line F) ∧
    (∀ (line : List Char) (r : LogRecord α),
      parse_line F line = some r ↔
        ∃ pre post, line = pre ++ ' ' :: post ∧ ' ' ∉ pre ∧
          F.parse_iso_local pre = some r.ts ∧ F.stod post = some r.value) ∧
    (∀ (before after : List (List Char)) (bad : List Char),
      parse_line F bad = none →
        (before ++ bad :: after).filterMap (parse_line F) =
          (before ++ after).filterMap (parse_line F)) :=
  ⟨by simp [read_records, FS.write], parse_line_eq_some F,
    fun before after bad h => filterMap_skip (parse_line F) before after bad h⟩

/-- Witness for C8 (amended): a file of a well-formed line, a line without a space, a line
with an unparseable timestamp, a line with an unparseable value, and another well-formed
line yields the two well-formed records. -/
theorem read_records_spec_witness :
    read_records ratFormat rawLog (emptyFS.write rawLog.m_path
        ("2024-01-01T00:00:00 1.000\nnoise\n2024-01-01 2.000\n" ++
          "2024-01-01T00:00:01 abc\n2024-01-01T00:00:02 3.250\n").toList) =
      [⟨1704067200, 1⟩, ⟨1704067202, 13 / 4⟩] :=
  (read_records_spec ratFormat rawLog emptyFS
      ("2024-01-01T00:00:00 1.000\nnoise\n2024-01-01 2.000\n" ++
        "2024-01-01T00:00:01 abc\n2024-01-01T00:00:02 3.250\n").toList).1.trans (by decide!)

/-- C9 as stated fails: the `double` 0.0625 is written as `0.062`, and `std::stod` reads
that text back as the binary64 value nearest to 0.062, which is not the decimal 0.062 and
lies more than 0.0005 from 0.0625. -/
theorem fixed3_roundtrip_counterexample :
    toBinary64 (1 / 16) = 1 / 16 ∧
    put_fixed3 (1 / 16) = "0.062".toList ∧
    round3 (1 / 16) = 62 / 1000 ∧
    stod (put_fixed3 (1 / 16)) = some (1116892707587883 / 18014398509481984) ∧
    (1116892707587883 / 18014398509481984 : ℚ) ≠ round3 (1 / 16) ∧
    (1 / 2000 : ℚ) < |(1116892707587883 / 18014398509481984 : ℚ) - 1 / 16| := by
  decide!

/-- C9, amended. For every finite value `v`, the text written for `v` (fixed notation, three
fractional digits) denotes `v` rounded to three fractional digits, a multiple of `0.001`
that differs from `v` by at most `0.0005`; parsing the text back yields the binary64 value
nearest to that decimal, which differs from the decimal by at most `2 ^ -53` of its
magnitude and so from `v` by at most `0.0005` plus that rounding error.  This is the value
`parse_line` reads from the line written for a record with the value `v`. -/
theorem fixed3_roundtrip (v : ℚ) (hv : |v| ≤ DBL_MAX) :
    stod_decimal (put_fixed3 v) = some (round3 v) ∧
    stod (put_fixed3 v) = some (toBinary64 (round3 v)) ∧
    (∃ k : Int, round3 v = (k : ℚ) / 1000) ∧
    |round3 v - v| ≤ 1 / 2000 ∧
    |toBinary64 (round3 v) - round3 v| ≤ |round3 v| / 2 ^ 53 ∧
    |toBinary64 (round3 v) - v| ≤ 1 / 2000 + |round3 v| / 2 ^ 53 ∧
    (∀ t : Int, TS_MIN ≤ t → t ≤ TS_MAX →
      parse_line ratFormat (format_record ratFormat { ts := t, value := v }) =
        some { ts := t, value := toBinary64 (round3 v) }) := by
  have h1 := toBinary64_error (round3 v)
  have h2 := round3_error v
  have h3 := abs_sub_le (toBinary64 (round3 v)) (round3 v) v
  refine ⟨stod_decimal_put_fixed3 v, stod_put_fixed3 v hv, ?_, h2, h1, by linarith,
    fun t ht0 ht1 => (parse_format_record { ts := t, value := v } ht0 ht1 hv).2⟩
  unfold round3
  split
  · exact ⟨-(fixed3_thousandths v : Int), by push_cast; ring⟩
  · exact ⟨(fixed3_thousandths v : Int), by push_cast; ring⟩

/-- Witness for C9 (amended): the `double` 23.4567 is written as `23.457` and read back as
the `double` 23.457. -/
theorem fixed3_roundtrip_witness :
    |sampleRecord.value| ≤ DBL_MAX ∧
    (stod_decimal (put_fixed3 sampleRecord.value) = some (round3 sampleRecord.value) ∧
    stod (put_fixed3 sampleRecord.value) = some (toBinary64 (round3 sampleRecord.value)) ∧
    (∃ k : Int, round3 sampleRecord.value = (k : ℚ) / 1000) ∧
    |round3 sampleRecord.value - sampleRecord.value| ≤ 1 / 2000 ∧
    |toBinary64 (round3 sampleRecord.value) - round3 sampleRecord.value| ≤
      |round3 sampleRecord.value| / 2 ^ 53 ∧
    |toBinary64 (round3 sampleRecord.value) - sampleRecord.value| ≤
      1 / 2000 + |round3 sampleRecord.value| / 2 ^ 53 ∧
    (∀ t : Int, TS_MIN ≤ t → t ≤ TS_MAX →
      parse_line ratFormat (format_record ratFormat { ts := t, value := sampleRecord.value }) =
        some { ts := t, value := toBinary64 (round3 sampleRecord.value) })) ∧
    put_fixed3 sampleRecord.value = "23.457".toList ∧
    round3 sampleRecord.value = 23457 / 1000 ∧
    stod "23.457".toList = some (toBinary64 (23457 / 1000)) :=
  ⟨by decide!, fixed3_roundtrip sampleRecord.value (by decide!), by decide!, by decide!,
    by decide!⟩

end RetentionClaims



end TempLogger
